import Mathlib

/-!
Verification of the `semantic-domains` repository (RWC document parser,
bracket-protecting word tokenizer, and domain hierarchy) against its
natural-language specification.

The development shallowly embeds the code of `src/semantic_domains/`
(`rwc_parser.py`, `definitions.py`, `hierarchy.py`), which is the package
the claims cite.  Python strings are modelled as `List Char` (wrapped in
`String` at data-record boundaries), Python exceptions as the `PyExc`
error type of an `Except` monad, and the parser's mutable cursor as an
explicit `Nat` threaded through the parsing functions.

Exception realization: the Python code signals failures with built-in
exceptions; the specification names them abstractly.  The correspondence,
visible in the source, is:
  * spec `FormatError`         = `AssertionError` raised by the parser's
    `assert` statements (style mismatch, missing bullet, bad question
    number syntax) — `PyExc.assertionError`;
  * spec `EndOfInput`          = `StopIteration` — `PyExc.stopIteration`;
  * spec `DuplicateDomainError` = `AssertionError` in `DomainNode.insert` —
    `PyExc.assertionError`;
  * spec `KeyNotFoundError`    = `KeyError` (missing segment) or
    `AssertionError` (contentless node) in `DomainNode.__getitem__` —
    `PyExc.keyError` / `PyExc.assertionError`.
`IndexError` (`list.pop` from an empty list, list index out of range),
`ValueError` (`int()` on a non-numeric string), `TypeError` and
`AttributeError` model the corresponding Python built-ins.
-/

/-- Python exception kinds that the embedded code can raise. -/
inductive PyExc where
  | assertionError
  | stopIteration
  | indexError
  | keyError
  | typeError
  | valueError
  | attributeError
deriving DecidableEq, Repr

instance exceptDecEq {ε α : Type} [DecidableEq ε] [DecidableEq α] :
    DecidableEq (Except ε α) := fun a b =>
  match a, b with
  | .ok x, .ok y =>
    if h : x = y then .isTrue (by rw [h]) else .isFalse (by intro he; cases he; exact h rfl)
  | .error x, .error y =>
    if h : x = y then .isTrue (by rw [h]) else .isFalse (by intro he; cases he; exact h rfl)
  | .ok _, .error _ => .isFalse (by intro he; cases he)
  | .error _, .ok _ => .isFalse (by intro he; cases he)

/-- `definitions.py`: `Question` dataclass (`num`, `text`, `words`).
Words are plain strings after tokenization. -/
structure Question where
  num : Int
  text : String
  words : List String
deriving DecidableEq, Repr

/-- `definitions.py`: `Domain` dataclass (`code`, `title`, `description`,
`questions`). -/
structure Domain where
  code : String
  title : String
  description : String
  questions : List Question
deriving DecidableEq, Repr

/-! ## Character-list utilities

Python string operations used by the code, modelled on `List Char`
(a Python `str` is a sequence of characters; the code itself converts the
line to `list(string)` inside `protect_brackets`). -/

/-- Python `str.split(sep)` for a single-character separator `sep`:
splits at every occurrence, keeping empty segments
(`"a,,b".split(",") == ["a","","b"]`, `"".split(",") == [""]`). -/
def charSplitOn (sep : Char) : List Char → List (List Char)
  | [] => [[]]
  | c :: r =>
    if c = sep then [] :: charSplitOn sep r
    else
      match charSplitOn sep r with
      | [] => [[c]]
      | x :: xs => (c :: x) :: xs

/-- Prepend a character to the first segment of a split result. -/
def consHead (c : Char) : List (List Char) → List (List Char)
  | [] => [[c]]
  | x :: xs => (c :: x) :: xs

theorem charSplitOn_cons_ne (sep c : Char) (r : List Char) (h : ¬ c = sep) :
    charSplitOn sep (c :: r) = consHead c (charSplitOn sep r) := by
  simp only [charSplitOn, if_neg h]
  cases charSplitOn sep r <;> simp [consHead]

theorem charSplitOn_ne_nil (sep : Char) (s : List Char) : charSplitOn sep s ≠ [] := by
  induction s with
  | nil => simp [charSplitOn]
  | cons c r ih =>
    by_cases h : c = sep
    · simp [charSplitOn, h]
    · rw [charSplitOn_cons_ne sep c r h]
      cases hs : charSplitOn sep r <;> simp [consHead]

/-- Python `str.lstrip(chars)` for a single stripped character. -/
def lstripChar (ch : Char) (s : List Char) : List Char :=
  s.dropWhile (fun c => c = ch)

/-- Drop the longest suffix whose characters all satisfy `p`
(the mirror image of `List.dropWhile`, used to model Python `rstrip`). -/
def dropWhileRight (p : Char → Bool) : List Char → List Char
  | [] => []
  | c :: r =>
    let t := dropWhileRight p r
    if t.isEmpty then (if p c then [] else [c]) else c :: t

/-- Python `str.rstrip(chars)` for a single stripped character. -/
def rstripChar (ch : Char) (s : List Char) : List Char :=
  dropWhileRight (fun c => c = ch) s

/-- Python `str.strip()`: remove surrounding whitespace. -/
def trimChars (s : List Char) : List Char :=
  dropWhileRight Char.isWhitespace (s.dropWhile Char.isWhitespace)

/-- Python `int(s)`: optional surrounding whitespace, optional sign, then a
non-empty run of decimal digits; anything else raises `ValueError`.
(Python's underscore digit grouping and non-ASCII digits are not used by
the inputs this development handles and are not modelled.) -/
def parsePyInt (s : List Char) : Except PyExc Int :=
  let t := trimChars s
  let (sign, digits) :=
    match t with
    | '-' :: ds => ((-1 : Int), ds)
    | '+' :: ds => ((1 : Int), ds)
    | ds => ((1 : Int), ds)
  if digits ≠ [] ∧ digits.all Char.isDigit then
    .ok (sign * (digits.foldl (fun a c => 10 * a + (c.toNat - '0'.toNat)) 0 : Nat))
  else .error .valueError

example : parsePyInt "12".data = .ok 12 := by decide
example : parsePyInt " -3 ".data = .ok (-3) := by decide
example : parsePyInt "".data = .error .valueError := by decide
example : parsePyInt "1a".data = .error .valueError := by decide

/-! ## The tokenizer of `RWCParser.parse_set_of_words` -/

/-- `protect_brackets` from `rwc_parser.py`, scanning with the explicit
stack of open-bracket markers the Python code keeps: on `(` push `'('`;
on `)` pop (`IndexError` when the stack is empty, and the popped marker
is asserted to be `'('`); any other character is replaced via
`{' ': '_', ',': '#'}` exactly when the stack is non-empty.
There is no final check that the stack is empty. -/
def protectBracketsAux (stack : List Char) : List Char → Except PyExc (List Char)
  | [] => .ok []
  | c :: r =>
    if c = '(' then (protectBracketsAux ('(' :: stack) r).map (fun t => c :: t)
    else if c = ')' then
      match stack with
      | [] => .error .indexError
      | p :: s' =>
        if p = '(' then (protectBracketsAux s' r).map (fun t => c :: t)
        else .error .assertionError
    else
      let c' := if stack.length > 0 ∧ c = ' ' then '_'
                else if stack.length > 0 ∧ c = ',' then '#'
                else c
      (protectBracketsAux stack r).map (fun t => c' :: t)

def protectBrackets (s : List Char) : Except PyExc (List Char) :=
  protectBracketsAux [] s

/-- `word.replace("(v)", "(verb)")`: left-to-right, non-overlapping
replacement of the exact three-character substring. -/
def expandV : List Char → List Char
  | '(' :: 'v' :: ')' :: rest => '(' :: 'v' :: 'e' :: 'r' :: 'b' :: ')' :: expandV rest
  | c :: rest => c :: expandV rest
  | [] => []

/-- `word.replace("(n)", "(noun)")`. -/
def expandN : List Char → List Char
  | '(' :: 'n' :: ')' :: rest => '(' :: 'n' :: 'o' :: 'u' :: 'n' :: ')' :: expandN rest
  | c :: rest => c :: expandN rest
  | [] => []

/-- The character map realized by `recover_replaced_characters`:
`word.replace("_", " ").replace("#", ",")`.  A `replace` whose pattern is a
single character rewrites each occurrence of that character independently,
so the two chained calls amount to this per-character map (the first call
never produces `'#'`). -/
def recChar (c : Char) : Char :=
  if c = '_' then ' ' else if c = '#' then ',' else c

/-- `recover_replaced_characters(word, {' ': '_', ',': '#'})`. -/
def recoverReplaced (w : List Char) : List Char :=
  w.map recChar

/-- `tokenize_words` from `parse_set_of_words`: protect bracketed spans,
split on commas, strip each piece, drop empties, expand `(v)`/`(n)`,
restore the protected characters. -/
def tokenizeWords (s : List Char) : Except PyExc (List (List Char)) :=
  (protectBrackets s).map (fun prot =>
    ((((charSplitOn ',' prot).map trimChars).filter (fun w => !w.isEmpty)).map
        (fun w => expandN (expandV w))).map recoverReplaced)

/-- The text-processing part of `RWCParser.parse_set_of_words`, applied to
the text of a words line: assert the leading bullet, strip all leading
`•` characters then surrounding whitespace, and tokenize. -/
def parseSetOfWordsText (text : String) : Except PyExc (List String) :=
  if text.data.head? = some '•' then
    (tokenizeWords (trimChars (lstripChar '•' text.data))).map (List.map String.mk)
  else .error .assertionError

example : parseSetOfWordsText "• cat, dog (big, friendly), bird" =
    .ok ["cat", "dog (big, friendly)", "bird"] := by decide
example : parseSetOfWordsText "• run (v), jump" = .ok ["run (verb)", "jump"] := by decide
example : parseSetOfWordsText "• cat (big, dog" = .ok ["cat (big, dog"] := by decide
example : parseSetOfWordsText "• a)b" = .error .indexError := by decide

/-! ## Claim model of the tokenizer (from the specification's words)

These definitions follow the specification text, to be compared with the
embedding above: split the stripped line at the commas that occur outside
parenthetical spans, trim each segment, drop empty segments, and expand
the exact substrings `(v)` and `(n)`. -/

/-- Split at commas that occur at parenthesis depth 0, tracking the depth
directly on the original characters. -/
def claimSplit : Nat → List Char → List (List Char)
  | _, [] => [[]]
  | d, c :: r =>
    if d = 0 ∧ c = ',' then [] :: claimSplit 0 r
    else if c = '(' then consHead c (claimSplit (d + 1) r)
    else if c = ')' then consHead c (claimSplit (d - 1) r)
    else consHead c (claimSplit d r)

/-- The specification's tokenizer: comma-separated segments taken outside
parenthetical spans, trimmed, empties dropped, `(v)`/`(n)` expanded;
commas and spaces inside parentheses are left intact. -/
def claimTokenize (s : List Char) : List (List Char) :=
  (((claimSplit 0 s).map trimChars).filter (fun w => !w.isEmpty)).map
    (fun w => expandN (expandV w))

/-- Balanced-parenthesis check starting from open depth `d`: every `)`
must have a matching `(` and the final depth must be 0. -/
def balB : Nat → List Char → Bool
  | d, [] => d == 0
  | d, c :: r =>
    if c = '(' then balB (d + 1) r
    else if c = ')' then decide (0 < d) && balB (d - 1) r
    else balB d r

/-- A scan from depth `d` never meets a `)` at depth 0 (the condition for
`protect_brackets` not to pop from an empty stack). -/
def noUnmatchedClose : Nat → List Char → Bool
  | _, [] => true
  | d, c :: r =>
    if c = '(' then noUnmatchedClose (d + 1) r
    else if c = ')' then decide (0 < d) && noUnmatchedClose (d - 1) r
    else noUnmatchedClose d r

/-- No placeholder characters: the line must not already contain the
private placeholder characters `_` and `#` that the tokenizer uses
(the spec documents behavior as undefined otherwise). -/
def noPlaceholders (s : List Char) : Bool :=
  s.all (fun c => ¬ (c = '_' ∨ c = '#'))

theorem balB_noUnmatchedClose {d : Nat} {s : List Char} (h : balB d s = true) :
    noUnmatchedClose d s = true := by
  induction s generalizing d with
  | nil => simp [noUnmatchedClose]
  | cons c r ih =>
    by_cases h1 : c = '('
    · simp only [balB, if_pos h1] at h
      simp only [noUnmatchedClose, if_pos h1]
      exact ih h
    · by_cases h2 : c = ')'
      · simp only [balB, if_neg h1, if_pos h2, Bool.and_eq_true] at h
        simp only [noUnmatchedClose, if_neg h1, if_pos h2, Bool.and_eq_true]
        exact ⟨h.1, ih h.2⟩
      · simp only [balB, if_neg h1, if_neg h2] at h
        simp only [noUnmatchedClose, if_neg h1, if_neg h2]
        exact ih h

/-- Stateless form of the protection scan: the stack of `protect_brackets`
only ever holds `(` markers, so it acts as a depth counter. -/
def pureProtect : Nat → List Char → List Char
  | _, [] => []
  | d, c :: r =>
    if c = '(' then c :: pureProtect (d + 1) r
    else if c = ')' then c :: pureProtect (d - 1) r
    else (if 0 < d ∧ c = ' ' then '_' else if 0 < d ∧ c = ',' then '#' else c)
      :: pureProtect d r

theorem protectBracketsAux_eq_pureProtect {s : List Char} :
    ∀ {d : Nat}, noUnmatchedClose d s = true →
    protectBracketsAux (List.replicate d '(') s = .ok (pureProtect d s) := by
  induction s with
  | nil => intro d _; simp [protectBracketsAux, pureProtect]
  | cons c r ih =>
    intro d h
    by_cases h1 : c = '('
    · simp only [noUnmatchedClose, if_pos h1] at h
      simp only [protectBracketsAux, if_pos h1, pureProtect]
      rw [show ('(' :: List.replicate d '(') = List.replicate (d + 1) '(' by
        simp [List.replicate_succ]]
      rw [ih h]; rfl
    · by_cases h2 : c = ')'
      · simp only [noUnmatchedClose, if_neg h1, if_pos h2, Bool.and_eq_true,
          decide_eq_true_eq] at h
        obtain ⟨hd, h⟩ := h
        simp only [protectBracketsAux, if_neg h1, if_pos h2, pureProtect]
        obtain ⟨d', rfl⟩ : ∃ d', d = d' + 1 := ⟨d - 1, by omega⟩
        rw [List.replicate_succ]
        simp only [reduceIte]
        simp only [Nat.add_sub_cancel] at h ⊢
        rw [ih h]; rfl
      · simp only [noUnmatchedClose, if_neg h1, if_neg h2] at h
        simp only [protectBracketsAux, if_neg h1, if_neg h2, pureProtect]
        rw [ih h]
        simp only [List.length_replicate, Except.map_ok]
        rfl

theorem protectBrackets_eq_pureProtect {s : List Char}
    (h : noUnmatchedClose 0 s = true) :
    protectBrackets s = .ok (pureProtect 0 s) :=
  protectBracketsAux_eq_pureProtect (d := 0) h

theorem pureProtect_nil_iff (d : Nat) (s : List Char) :
    pureProtect d s = [] ↔ s = [] := by
  cases s with
  | nil => simp [pureProtect]
  | cons c r =>
    simp only [pureProtect]
    constructor
    · intro h
      by_cases h1 : c = '(' <;> by_cases h2 : c = ')' <;> simp [h1, h2] at h
    · intro h; cases h

/-- Head-character transformation of the protection scan. -/
def protHead (d : Nat) (c : Char) : Char :=
  if c = '(' then '(' else if c = ')' then ')'
  else if 0 < d ∧ c = ' ' then '_' else if 0 < d ∧ c = ',' then '#' else c

/-- Depth after scanning one character. -/
def protNext (d : Nat) (c : Char) : Nat :=
  if c = '(' then d + 1 else if c = ')' then d - 1 else d

theorem pureProtect_cons (d : Nat) (c : Char) (r : List Char) :
    pureProtect d (c :: r) = protHead d c :: pureProtect (protNext d c) r := by
  by_cases h1 : c = '(' <;> by_cases h2 : c = ')' <;>
    simp [pureProtect, protHead, protNext, h1, h2]

theorem balB_cons_other {d : Nat} {c : Char} (r : List Char)
    (h1 : ¬ c = '(') (h2 : ¬ c = ')') : balB d (c :: r) = balB d r := by
  simp [balB, h1, h2]

theorem claimSplit_cons_sep (r : List Char) :
    claimSplit 0 (',' :: r) = [] :: claimSplit 0 r := by
  simp [claimSplit]

theorem claimSplit_cons_ne {d : Nat} {c : Char} (r : List Char)
    (h : ¬ (d = 0 ∧ c = ',')) :
    claimSplit d (c :: r) = consHead c (claimSplit (protNext d c) r) := by
  by_cases h1 : c = '(' <;> by_cases h2 : c = ')' <;>
    simp [claimSplit, protNext, h1, h2, h]

theorem claimSplit_ne_nil (d : Nat) (s : List Char) : claimSplit d s ≠ [] := by
  induction s generalizing d with
  | nil => simp [claimSplit]
  | cons c r ih =>
    by_cases h : d = 0 ∧ c = ','
    · obtain ⟨rfl, rfl⟩ := h; rw [claimSplit_cons_sep]; simp
    · rw [claimSplit_cons_ne r h]
      cases claimSplit (protNext d c) r <;> simp [consHead]

/-- Protect the first segment from its starting depth `d`; later segments
all start at depth 0 (they begin just after a depth-0 comma). -/
def mapSegs (d : Nat) : List (List Char) → List (List Char)
  | [] => []
  | x :: xs => pureProtect d x :: xs.map (pureProtect 0)

theorem mapSegs_zero (L : List (List Char)) : mapSegs 0 L = L.map (pureProtect 0) := by
  cases L <;> simp [mapSegs]

theorem consHead_mapSegs (d d' : Nat) (c c' : Char) (L : List (List Char))
    (h : ∀ x, pureProtect d (c :: x) = c' :: pureProtect d' x) :
    consHead c' (mapSegs d' L) = mapSegs d (consHead c L) := by
  cases L with
  | nil =>
    show [[c']] = [pureProtect d [c]]
    rw [h []]
    rfl
  | cons x xs => simp [consHead, mapSegs, h x]

/-- The comma-split of the protected string corresponds segment-by-segment
to the split of the original string at depth-0 commas: commas inside
brackets were turned into `#` and no longer split, and each surviving
segment is the protection of the original segment. -/
theorem charSplitOn_pureProtect :
    ∀ (s : List Char) (d : Nat),
    charSplitOn ',' (pureProtect d s) = mapSegs d (claimSplit d s) := by
  intro s
  induction s with
  | nil => intro d; simp [pureProtect, charSplitOn, claimSplit, mapSegs]
  | cons c r ih =>
    intro d
    rw [pureProtect_cons]
    by_cases hsep : d = 0 ∧ c = ','
    · obtain ⟨rfl, rfl⟩ := hsep
      rw [show protHead 0 ',' = ',' from rfl, show protNext 0 ',' = 0 from rfl]
      simp only [charSplitOn, if_pos rfl]
      rw [ih 0, claimSplit_cons_sep]
      simp only [mapSegs_zero]
      simp [mapSegs, pureProtect]
    · have hne : ¬ protHead d c = ',' := by
        intro hc
        by_cases h1 : c = '('
        · simp only [protHead, if_pos h1] at hc; exact absurd hc (by decide)
        · by_cases h2 : c = ')'
          · simp only [protHead, if_neg h1, if_pos h2] at hc; exact absurd hc (by decide)
          · by_cases h3 : 0 < d ∧ c = ' '
            · simp only [protHead, if_neg h1, if_neg h2, if_pos h3] at hc
              exact absurd hc (by decide)
            · by_cases h4 : 0 < d ∧ c = ','
              · simp only [protHead, if_neg h1, if_neg h2, if_neg h3, if_pos h4] at hc
                exact absurd hc (by decide)
              · simp only [protHead, if_neg h1, if_neg h2, if_neg h3, if_neg h4] at hc
                have hd0 : ¬ 0 < d := fun hlt => h4 ⟨hlt, hc⟩
                exact hsep ⟨by omega, hc⟩
      rw [charSplitOn_cons_ne _ _ _ hne, ih (protNext d c), claimSplit_cons_ne r hsep]
      exact consHead_mapSegs d (protNext d c) c (protHead d c) _ (fun x => pureProtect_cons d c x)

theorem dropWhileRight_cons (p : Char → Bool) (c : Char) (r : List Char) :
    dropWhileRight p (c :: r) =
      if (dropWhileRight p r).isEmpty then (if p c then [] else [c])
      else c :: dropWhileRight p r := rfl

theorem dropWhileRight_eq_nil_iff (p : Char → Bool) (s : List Char) :
    dropWhileRight p s = [] ↔ ∀ c ∈ s, p c = true := by
  induction s with
  | nil => simp [dropWhileRight]
  | cons c r ih =>
    rw [dropWhileRight_cons]
    by_cases he : (dropWhileRight p r).isEmpty
    · rw [if_pos he]
      have hr : ∀ a ∈ r, p a = true := ih.mp (List.isEmpty_iff.mp he)
      by_cases hc : p c = true
      · rw [if_pos hc]
        simp only [true_iff, eq_self_iff_true]
        intro a ha
        rcases List.mem_cons.mp ha with h | h
        · exact h ▸ hc
        · exact hr a h
      · rw [if_neg hc]
        constructor
        · intro h; exact absurd h (by simp)
        · intro h; exact absurd (h c (by simp)) hc
    · rw [if_neg he]
      constructor
      · intro h; cases h
      · intro h
        exact absurd (List.isEmpty_iff.mpr (ih.mpr (fun a ha => h a (by simp [ha])))) he

theorem dropWhileRight_mem (p : Char → Bool) (s : List Char) :
    ∀ c ∈ dropWhileRight p s, c ∈ s := by
  induction s with
  | nil => simp [dropWhileRight]
  | cons c r ih =>
    rw [dropWhileRight_cons]
    by_cases he : (dropWhileRight p r).isEmpty
    · rw [if_pos he]
      by_cases hc : p c <;> simp [hc]
    · rw [if_neg he]
      intro a ha
      rcases List.mem_cons.mp ha with h | h
      · simp [h]
      · exact List.mem_cons_of_mem c (ih a h)

theorem trimChars_mem (s : List Char) : ∀ c ∈ trimChars s, c ∈ s := by
  intro c hc
  exact List.dropWhile_sublist _ |>.mem (dropWhileRight_mem _ _ c hc)

/-- Every segment produced by the depth-aware split of a balanced string is
itself balanced. -/
theorem claimSplit_first_rest :
    ∀ (s : List Char) (d : Nat), balB d s = true →
    ∃ x xs, claimSplit d s = x :: xs ∧ balB d x = true ∧ ∀ y ∈ xs, balB 0 y = true := by
  intro s
  induction s with
  | nil =>
    intro d h
    exact ⟨[], [], rfl, h, by simp⟩
  | cons c r ih =>
    intro d h
    by_cases hsep : d = 0 ∧ c = ','
    · obtain ⟨rfl, rfl⟩ := hsep
      rw [claimSplit_cons_sep]
      rw [balB_cons_other r (by decide) (by decide)] at h
      obtain ⟨x', xs', heq, hx', hxs'⟩ := ih 0 h
      refine ⟨[], x' :: xs', by rw [heq], by simp [balB], ?_⟩
      intro y hy
      rcases List.mem_cons.mp hy with hy | hy
      · exact hy ▸ hx'
      · exact hxs' y hy
    · rw [claimSplit_cons_ne r hsep]
      by_cases h1 : c = '('
      · subst h1
        simp only [balB, if_pos rfl] at h
        obtain ⟨x', xs', heq, hx', hxs'⟩ := ih (d + 1) h
        rw [show protNext d '(' = d + 1 from rfl, heq]
        exact ⟨'(' :: x', xs', rfl, by simp [balB, hx'], hxs'⟩
      · by_cases h2 : c = ')'
        · subst h2
          rw [show balB d (')' :: r) = (decide (0 < d) && balB (d - 1) r) from rfl,
            Bool.and_eq_true, decide_eq_true_eq] at h
          obtain ⟨hd, h⟩ := h
          obtain ⟨x', xs', heq, hx', hxs'⟩ := ih (d - 1) h
          rw [show protNext d ')' = d - 1 from rfl, heq]
          refine ⟨')' :: x', xs', rfl, ?_, hxs'⟩
          simp [balB, hx', hd]
        · rw [balB_cons_other r h1 h2] at h
          obtain ⟨x', xs', heq, hx', hxs'⟩ := ih d h
          rw [show protNext d c = d from by simp [protNext, h1, h2], heq]
          refine ⟨c :: x', xs', rfl, ?_, hxs'⟩
          rw [balB_cons_other x' h1 h2]
          exact hx'

theorem claimSplit_all_bal {s : List Char} (hb : balB 0 s = true) :
    ∀ x ∈ claimSplit 0 s, balB 0 x = true := by
  obtain ⟨x', xs', heq, hx', hxs'⟩ := claimSplit_first_rest s 0 hb
  intro x hx
  rw [heq] at hx
  rcases List.mem_cons.mp hx with h | h
  · exact h ▸ hx'
  · exact hxs' x h

/-- Every character of a split segment comes from the original string. -/
theorem claimSplit_mem :
    ∀ (s : List Char) (d : Nat) (x : List Char), x ∈ claimSplit d s → ∀ c ∈ x, c ∈ s := by
  intro s
  induction s with
  | nil =>
    intro d x hx c hc
    simp only [claimSplit, List.mem_singleton] at hx
    subst hx
    cases hc
  | cons c0 r ih =>
    intro d x hx c hc
    by_cases hsep : d = 0 ∧ c0 = ','
    · obtain ⟨rfl, rfl⟩ := hsep
      rw [claimSplit_cons_sep] at hx
      rcases List.mem_cons.mp hx with hx | hx
      · subst hx; cases hc
      · exact List.mem_cons_of_mem _ (ih 0 x hx c hc)
    · rw [claimSplit_cons_ne r hsep] at hx
      obtain ⟨y, ys, heq⟩ := List.exists_cons_of_ne_nil (claimSplit_ne_nil (protNext d c0) r)
      rw [heq] at hx
      simp only [consHead] at hx
      rcases List.mem_cons.mp hx with hx | hx
      · subst hx
        rcases List.mem_cons.mp hc with hc | hc
        · simp [hc]
        · exact List.mem_cons_of_mem _ (ih _ y (heq ▸ List.mem_cons_self y ys) c hc)
      · exact List.mem_cons_of_mem _ (ih _ x (heq ▸ List.mem_cons_of_mem y hx) c hc)

theorem ws_ne {c : Char} (h : c.isWhitespace = true) :
    ¬ c = '(' ∧ ¬ c = ')' ∧ ¬ c = ',' := by
  refine ⟨?_, ?_, ?_⟩ <;> intro hc <;> subst hc <;> exact absurd h (by decide)

theorem allWS_balB {s : List Char} (hws : ∀ c ∈ s, c.isWhitespace = true) :
    ∀ {d : Nat}, balB d s = true → d = 0 := by
  induction s with
  | nil => intro d h; simpa [balB] using h
  | cons c r ih =>
    intro d h
    obtain ⟨h1, h2, _⟩ := ws_ne (hws c (by simp))
    rw [balB_cons_other r h1 h2] at h
    exact ih (fun a ha => hws a (by simp [ha])) h

theorem balB_dropWhile_ws {s : List Char} :
    ∀ {d : Nat}, balB d s = true → balB d (s.dropWhile Char.isWhitespace) = true := by
  induction s with
  | nil => intro d h; exact h
  | cons c r ih =>
    intro d h
    by_cases hw : c.isWhitespace
    · obtain ⟨h1, h2, _⟩ := ws_ne hw
      rw [List.dropWhile_cons, if_pos hw]
      rw [balB_cons_other r h1 h2] at h
      exact ih h
    · rw [List.dropWhile_cons, if_neg hw]
      exact h

theorem balB_dropWhileRight_ws {s : List Char} :
    ∀ {d : Nat}, balB d s = true →
      balB d (dropWhileRight Char.isWhitespace s) = true := by
  induction s with
  | nil => intro d h; exact h
  | cons c r ih =>
    intro d h
    rw [dropWhileRight_cons]
    by_cases ht : (dropWhileRight Char.isWhitespace r).isEmpty
    · rw [if_pos ht]
      have hallws : ∀ a ∈ r, a.isWhitespace = true :=
        (dropWhileRight_eq_nil_iff _ _).mp (List.isEmpty_iff.mp ht)
      by_cases h1 : c = '('
      · subst h1
        simp only [balB, if_pos rfl] at h
        exact absurd (allWS_balB hallws h) (by omega)
      · by_cases h2 : c = ')'
        · subst h2
          rw [show balB d (')' :: r) = (decide (0 < d) && balB (d - 1) r) from rfl,
            Bool.and_eq_true, decide_eq_true_eq] at h
          obtain ⟨hd, h⟩ := h
          have hd1 : d - 1 = 0 := allWS_balB hallws h
          rw [if_neg (by decide)]
          rw [show balB d [')'] = (decide (0 < d) && balB (d - 1) []) from rfl]
          simp [balB, hd, hd1]
        · rw [balB_cons_other r h1 h2] at h
          have hd0 : d = 0 := allWS_balB hallws h
          subst hd0
          by_cases hw : c.isWhitespace
          · rw [if_pos hw]; rfl
          · rw [if_neg hw, balB_cons_other [] h1 h2]; rfl
    · rw [if_neg ht]
      by_cases h1 : c = '('
      · subst h1
        simp only [balB, if_pos rfl] at h ⊢
        exact ih h
      · by_cases h2 : c = ')'
        · subst h2
          rw [show balB d (')' :: r) = (decide (0 < d) && balB (d - 1) r) from rfl,
            Bool.and_eq_true] at h
          rw [show balB d (')' :: dropWhileRight Char.isWhitespace r) =
            (decide (0 < d) && balB (d - 1) (dropWhileRight Char.isWhitespace r)) from rfl,
            Bool.and_eq_true]
          exact ⟨h.1, ih h.2⟩
        · rw [balB_cons_other r h1 h2] at h
          rw [balB_cons_other _ h1 h2]
          exact ih h

theorem balB_trimChars {s : List Char} (h : balB 0 s = true) :
    balB 0 (trimChars s) = true :=
  balB_dropWhileRight_ws (balB_dropWhile_ws h)

theorem protHead_zero (c : Char) : protHead 0 c = c := by
  by_cases h1 : c = '('
  · subst h1; rfl
  · by_cases h2 : c = ')'
    · subst h2; rfl
    · simp [protHead, h1, h2]

theorem protNext_other {d : Nat} {c : Char} (h1 : ¬ c = '(') (h2 : ¬ c = ')') :
    protNext d c = d := by simp [protNext, h1, h2]

theorem protHead_not_ws {d : Nat} {c : Char} (hw : ¬ c.isWhitespace = true) :
    ¬ (protHead d c).isWhitespace = true := by
  by_cases h1 : c = '('
  · subst h1; rw [show protHead d '(' = '(' from rfl]; decide
  · by_cases h2 : c = ')'
    · subst h2; rw [show protHead d ')' = ')' from rfl]; decide
    · by_cases h3 : 0 < d ∧ c = ' '
      · exact absurd (show c.isWhitespace = true by rw [h3.2]; decide) hw
      · by_cases h4 : 0 < d ∧ c = ','
        · simp only [protHead, if_neg h1, if_neg h2, if_neg h3, if_pos h4]; decide
        · simp only [protHead, if_neg h1, if_neg h2, if_neg h3, if_neg h4]; exact hw

theorem protHead_ws_id {d : Nat} {c : Char} (hw : c.isWhitespace = true)
    (hsp : ¬ (0 < d ∧ c = ' ')) : protHead d c = c := by
  obtain ⟨h1, h2, h3⟩ := ws_ne hw
  have h4 : ¬ (0 < d ∧ c = ',') := fun hx => h3 hx.2
  simp only [protHead, if_neg h1, if_neg h2, if_neg hsp, if_neg h4]

/-- Protection commutes with stripping leading whitespace at depth 0:
characters before the first `(` are never replaced. -/
theorem dropWhile_ws_pureProtect (s : List Char) :
    (pureProtect 0 s).dropWhile Char.isWhitespace
      = pureProtect 0 (s.dropWhile Char.isWhitespace) := by
  induction s with
  | nil => rfl
  | cons c r ih =>
    rw [pureProtect_cons, protHead_zero]
    by_cases hw : c.isWhitespace
    · obtain ⟨h1, h2, _⟩ := ws_ne hw
      rw [List.dropWhile_cons, if_pos hw, List.dropWhile_cons, if_pos hw,
        protNext_other h1 h2]
      exact ih
    · rw [List.dropWhile_cons, if_neg hw, List.dropWhile_cons, if_neg hw,
        pureProtect_cons, protHead_zero]

/-- Protection commutes with stripping trailing whitespace on a balanced
string: trailing whitespace sits at depth 0 (a balanced string ends at
depth 0 and whitespace does not change the depth), so it is never
replaced by a placeholder. -/
theorem dropWhileRight_ws_pureProtect :
    ∀ (s : List Char) (d : Nat), balB d s = true →
    dropWhileRight Char.isWhitespace (pureProtect d s)
      = pureProtect d (dropWhileRight Char.isWhitespace s) := by
  intro s
  induction s with
  | nil => intro d _; rfl
  | cons c r ih =>
    intro d h
    have hnext : balB (protNext d c) r = true := by
      by_cases h1 : c = '('
      · subst h1; simpa [balB, protNext] using h
      · by_cases h2 : c = ')'
        · subst h2
          rw [show balB d (')' :: r) = (decide (0 < d) && balB (d - 1) r) from rfl,
            Bool.and_eq_true] at h
          rw [show protNext d ')' = d - 1 from rfl]
          exact h.2
        · rw [balB_cons_other r h1 h2] at h
          rwa [protNext_other h1 h2]
    have hr := ih (protNext d c) hnext
    rw [pureProtect_cons, dropWhileRight_cons, dropWhileRight_cons, hr]
    by_cases ht : (dropWhileRight Char.isWhitespace r).isEmpty
    · have hnil : dropWhileRight Char.isWhitespace r = [] := List.isEmpty_iff.mp ht
      rw [hnil]
      simp only [show pureProtect (protNext d c) [] = [] from rfl, List.isEmpty_nil,
        if_true]
      have hallws : ∀ a ∈ r, a.isWhitespace = true :=
        (dropWhileRight_eq_nil_iff _ _).mp hnil
      by_cases hw : c.isWhitespace
      · by_cases hsp : 0 < d ∧ c = ' '
        · obtain ⟨g1, g2, _⟩ := ws_ne hw
          rw [balB_cons_other r g1 g2] at h
          exact absurd (allWS_balB hallws h) (by omega)
        · rw [protHead_ws_id hw hsp, if_pos hw]
          rfl
      · rw [if_neg (protHead_not_ws hw), if_neg hw, pureProtect_cons]
        rfl
    · have hne : dropWhileRight Char.isWhitespace r ≠ [] :=
        fun hh => ht (List.isEmpty_iff.mpr hh)
      have hpe : ¬ (pureProtect (protNext d c) (dropWhileRight Char.isWhitespace r)).isEmpty
          = true := by
        intro hh
        exact hne ((pureProtect_nil_iff _ _).mp (List.isEmpty_iff.mp hh))
      rw [if_neg ht, if_neg hpe, pureProtect_cons]

/-- Protection commutes with `strip()` on balanced segments. -/
theorem trimChars_pureProtect {x : List Char} (hb : balB 0 x = true) :
    trimChars (pureProtect 0 x) = pureProtect 0 (trimChars x) := by
  rw [trimChars, trimChars, dropWhile_ws_pureProtect]
  exact dropWhileRight_ws_pureProtect _ 0 (balB_dropWhile_ws hb)

theorem pureProtect_isEmpty (d : Nat) (x : List Char) :
    (pureProtect d x).isEmpty = x.isEmpty := by
  cases x with
  | nil => rfl
  | cons c r => rw [pureProtect_cons]; rfl

/-- Undoing the protection recovers the original characters, provided the
original contained no placeholder characters: every `_`/`#` in the
protected string stems from a protected space/comma. -/
theorem recover_pureProtect :
    ∀ (s : List Char) (d : Nat), noPlaceholders s = true →
    recoverReplaced (pureProtect d s) = s := by
  intro s
  induction s with
  | nil => intro d _; rfl
  | cons c r ih =>
    intro d hn
    simp only [noPlaceholders, List.all_cons, Bool.and_eq_true, decide_eq_true_eq] at hn
    obtain ⟨hc, hr⟩ := hn
    have hh : recChar (protHead d c) = c := by
      by_cases h1 : c = '('
      · subst h1; rfl
      · by_cases h2 : c = ')'
        · subst h2; rfl
        · by_cases h3 : 0 < d ∧ c = ' '
          · simp only [protHead, if_neg h1, if_neg h2, if_pos h3]
            rw [show recChar '_' = ' ' from rfl, h3.2]
          · by_cases h4 : 0 < d ∧ c = ','
            · simp only [protHead, if_neg h1, if_neg h2, if_neg h3, if_pos h4]
              rw [show recChar '#' = ',' from rfl, h4.2]
            · simp only [protHead, if_neg h1, if_neg h2, if_neg h3, if_neg h4]
              have hc1 : ¬ c = '_' := fun hx => hc (Or.inl hx)
              have hc2 : ¬ c = '#' := fun hx => hc (Or.inr hx)
              simp [recChar, hc1, hc2]
    rw [pureProtect_cons, recoverReplaced, List.map_cons, hh]
    have := ih (protNext d c) (by simpa [noPlaceholders] using hr)
    rw [recoverReplaced] at this
    rw [this]

theorem recChar_eq_iff {c p : Char} (h1 : ¬ p = ' ') (h2 : ¬ p = ',')
    (h3 : ¬ p = '_') (h4 : ¬ p = '#') : recChar c = p ↔ c = p := by
  by_cases hc1 : c = '_'
  · subst hc1
    rw [show recChar '_' = ' ' from rfl]
    exact iff_of_false (fun h => h1 h.symm) (fun h => h3 h.symm)
  · by_cases hc2 : c = '#'
    · subst hc2
      rw [show recChar '#' = ',' from rfl]
      exact iff_of_false (fun h => h2 h.symm) (fun h => h4 h.symm)
    · rw [show recChar c = c from by simp [recChar, hc1, hc2]]

/-- The placeholder-recovery map commutes with the `(v)` expansion: the
pattern characters `(`, `v`, `)` and the replacement `(verb)` are fixed
by the map and nothing maps onto them. -/
theorem map_recChar_expandV (s : List Char) :
    (expandV s).map recChar = expandV (s.map recChar) := by
  induction s using expandV.induct with
  | case1 rest ih =>
    rw [expandV.eq_1]
    simp only [List.map_cons]
    rw [show recChar '(' = '(' from rfl, show recChar 'v' = 'v' from rfl,
      show recChar ')' = ')' from rfl, show recChar 'e' = 'e' from rfl,
      show recChar 'r' = 'r' from rfl, show recChar 'b' = 'b' from rfl]
    rw [expandV.eq_1, ih]
  | case2 c rest h ih =>
    have hexc : ∀ (rest1 : List Char), recChar c = '(' →
        rest.map recChar = 'v' :: ')' :: rest1 → False := by
      intro rest1 hc hrest
      have hc' : c = '(' :=
        (recChar_eq_iff (by decide) (by decide) (by decide) (by decide)).mp hc
      cases rest with
      | nil => simp at hrest
      | cons a rest' =>
        simp only [List.map_cons, List.cons.injEq] at hrest
        obtain ⟨ha, hrest⟩ := hrest
        have ha' : a = 'v' :=
          (recChar_eq_iff (by decide) (by decide) (by decide) (by decide)).mp ha
        cases rest' with
        | nil => simp at hrest
        | cons b rest'' =>
          simp only [List.map_cons, List.cons.injEq] at hrest
          obtain ⟨hb, _⟩ := hrest
          have hb' : b = ')' :=
            (recChar_eq_iff (by decide) (by decide) (by decide) (by decide)).mp hb
          exact h rest'' hc' (by rw [ha', hb'])
    rw [expandV.eq_2 c rest h]
    simp only [List.map_cons]
    rw [expandV.eq_2 (recChar c) (rest.map recChar) hexc, ih]
  | case3 => rfl

/-- Same commutation for the `(n)` expansion. -/
theorem map_recChar_expandN (s : List Char) :
    (expandN s).map recChar = expandN (s.map recChar) := by
  induction s using expandN.induct with
  | case1 rest ih =>
    rw [expandN.eq_1]
    simp only [List.map_cons]
    rw [show recChar '(' = '(' from rfl, show recChar 'n' = 'n' from rfl,
      show recChar ')' = ')' from rfl, show recChar 'o' = 'o' from rfl,
      show recChar 'u' = 'u' from rfl]
    rw [expandN.eq_1, ih]
  | case2 c rest h ih =>
    have hexc : ∀ (rest1 : List Char), recChar c = '(' →
        rest.map recChar = 'n' :: ')' :: rest1 → False := by
      intro rest1 hc hrest
      have hc' : c = '(' :=
        (recChar_eq_iff (by decide) (by decide) (by decide) (by decide)).mp hc
      cases rest with
      | nil => simp at hrest
      | cons a rest' =>
        simp only [List.map_cons, List.cons.injEq] at hrest
        obtain ⟨ha, hrest⟩ := hrest
        have ha' : a = 'n' :=
          (recChar_eq_iff (by decide) (by decide) (by decide) (by decide)).mp ha
        cases rest' with
        | nil => simp at hrest
        | cons b rest'' =>
          simp only [List.map_cons, List.cons.injEq] at hrest
          obtain ⟨hb, _⟩ := hrest
          have hb' : b = ')' :=
            (recChar_eq_iff (by decide) (by decide) (by decide) (by decide)).mp hb
          exact h rest'' hc' (by rw [ha', hb'])
    rw [expandN.eq_2 c rest h]
    simp only [List.map_cons]
    rw [expandN.eq_2 (recChar c) (rest.map recChar) hexc, ih]
  | case3 => rfl

theorem noPlaceholders_of_mem {s x : List Char} (hsub : ∀ c ∈ x, c ∈ s)
    (hn : noPlaceholders s = true) : noPlaceholders x = true := by
  simp only [noPlaceholders, List.all_eq_true, decide_eq_true_eq] at hn ⊢
  exact fun c hc => hn c (hsub c hc)

theorem recover_expand_protect {y : List Char} (hn : noPlaceholders y = true) :
    recoverReplaced (expandN (expandV (pureProtect 0 y))) = expandN (expandV y) := by
  rw [recoverReplaced, map_recChar_expandN, map_recChar_expandV]
  rw [show (pureProtect 0 y).map recChar = recoverReplaced (pureProtect 0 y) from rfl]
  rw [recover_pureProtect y 0 hn]

/-- Element-wise comparison of the code pipeline (on protected segments)
with the claim pipeline (on original segments). -/
theorem tokenize_pipeline_eq (L : List (List Char))
    (h1 : ∀ x ∈ L, balB 0 x = true)
    (h2 : ∀ x ∈ L, noPlaceholders x = true) :
    ((((L.map (pureProtect 0)).map trimChars).filter (fun w => !w.isEmpty)).map
        (fun w => expandN (expandV w))).map recoverReplaced
      = ((L.map trimChars).filter (fun w => !w.isEmpty)).map
          (fun w => expandN (expandV w)) := by
  induction L with
  | nil => rfl
  | cons x xs ih =>
    have hx1 := h1 x (by simp)
    have hx2 := h2 x (by simp)
    have ihh := ih (fun a ha => h1 a (by simp [ha])) (fun a ha => h2 a (by simp [ha]))
    simp only [List.map_cons, List.filter_cons]
    rw [trimChars_pureProtect hx1, pureProtect_isEmpty]
    by_cases he : (trimChars x).isEmpty
    · rw [he]
      simp only [Bool.not_true]
      rw [if_neg (by simp), if_neg (by simp)]
      exact ihh
    · have he' : (trimChars x).isEmpty = false := by
        cases hv : (trimChars x).isEmpty
        · rfl
        · exact absurd hv he
      rw [he']
      simp only [Bool.not_false, reduceIte]
      simp only [List.map_cons]
      rw [ihh, recover_expand_protect (noPlaceholders_of_mem (trimChars_mem x) hx2)]

/-- On a balanced, placeholder-free line the code tokenizer computes
exactly the specification's tokenization. -/
theorem tokenizeWords_eq_claimTokenize {s : List Char}
    (hb : balB 0 s = true) (hn : noPlaceholders s = true) :
    tokenizeWords s = .ok (claimTokenize s) := by
  rw [tokenizeWords, protectBrackets_eq_pureProtect (balB_noUnmatchedClose hb)]
  simp only [Except.map]
  refine congrArg Except.ok ?_
  rw [charSplitOn_pureProtect s 0, mapSegs_zero, claimTokenize]
  exact tokenize_pipeline_eq (claimSplit 0 s) (claimSplit_all_bal hb)
    (fun x hx => noPlaceholders_of_mem (claimSplit_mem s 0 x hx) hn)

/-- C1: For every words line beginning with the bullet marker, containing
only balanced parentheses — and, as the counterexample forces, containing
no placeholder characters `_`/`#` — `parse_set_of_words` returns the
comma-separated segments taken outside parenthetical spans, each trimmed
of surrounding whitespace, empty segments dropped, commas and spaces
inside parentheses preserved intact, in source order with duplicates
preserved, with the exact substrings `(v)`/`(n)` expanded to
`(verb)`/`(noun)`; in particular the two example lines of the claim
tokenize as stated. -/
theorem claim_C1_tokenizer (text : String)
    (h0 : text.data.head? = some '•')
    (hb : balB 0 (trimChars (lstripChar '•' text.data)) = true)
    (hn : noPlaceholders (trimChars (lstripChar '•' text.data)) = true) :
    parseSetOfWordsText text
      = .ok ((claimTokenize (trimChars (lstripChar '•' text.data))).map String.mk) ∧
    parseSetOfWordsText "• cat, dog (big, friendly), bird"
      = .ok ["cat", "dog (big, friendly)", "bird"] ∧
    parseSetOfWordsText "• run (v), jump" = .ok ["run (verb)", "jump"] := by
  refine ⟨?_, by decide, by decide⟩
  rw [parseSetOfWordsText, if_pos h0, tokenizeWords_eq_claimTokenize hb hn]
  rfl

/-- C1 witness: the main equivalence applied to a concrete line whose
bracketed span contains a comma and a space. -/
theorem claim_C1_witness :
    parseSetOfWordsText "• cat, dog (big, friendly), bird"
      = .ok ((claimTokenize
          (trimChars (lstripChar '•' "• cat, dog (big, friendly), bird".data))).map
            String.mk) :=
  (claim_C1_tokenizer "• cat, dog (big, friendly), bird"
    (by decide) (by decide) (by decide)).1

/-- C1 counterexample: the claim as stated (without the placeholder-free
restriction) is false.  The line `• a_b` begins with the bullet marker and
has only balanced parentheses, its single segment outside parentheses is
`a_b`, yet the tokenizer returns `a b`: the restoration step rewrites the
pre-existing underscore into a space. -/
theorem claim_C1_counterexample :
    parseSetOfWordsText "• a_b" = .ok ["a b"] ∧
    claimTokenize (trimChars (lstripChar '•' "• a_b".data)) = ["a_b".data] ∧
    balB 0 (trimChars (lstripChar '•' "• a_b".data)) = true ∧
    ("a b" : String) ≠ "a_b" := by decide

/-- C6: amended.  A closing parenthesis met while the open-parenthesis
stack is empty does make the tokenizer fail (the pop from the empty stack
— an `IndexError`, the code's realization of the spec's unbalanced-bracket
`FormatError`).  But an opening parenthesis that is never closed does NOT
fail: `protect_brackets` never checks that its stack is empty at the end
of the scan, so `"• cat (big, dog"` tokenizes successfully to
`["cat (big, dog"]`. -/
theorem claim_C6_unbalanced (s : List Char)
    (h : noUnmatchedClose 0 s = false) :
    tokenizeWords s = .error .indexError ∧
    parseSetOfWordsText "• cat (big, dog" = .ok ["cat (big, dog"] ∧
    parseSetOfWordsText "• a)b" = .error .indexError := by
  refine ⟨?_, by decide, by decide⟩
  have herr : ∀ (r : List Char) (d : Nat), noUnmatchedClose d r = false →
      protectBracketsAux (List.replicate d '(') r = .error .indexError := by
    intro r
    induction r with
    | nil => intro d hd; exact absurd hd (by simp [noUnmatchedClose])
    | cons c rest ih =>
      intro d hd
      by_cases h1 : c = '('
      · subst h1
        simp only [noUnmatchedClose, if_pos rfl] at hd
        simp only [protectBracketsAux, if_pos rfl]
        rw [show ('(' :: List.replicate d '(') = List.replicate (d + 1) '(' by
          simp [List.replicate_succ]]
        rw [ih (d + 1) hd]
        rfl
      · by_cases h2 : c = ')'
        · subst h2
          simp only [noUnmatchedClose, if_neg h1, if_pos rfl] at hd
          cases d with
          | zero => simp [protectBracketsAux]
          | succ d' =>
            have hdec : decide (0 < d' + 1) = true := by simp
            rw [hdec, Bool.true_and] at hd
            simp only [protectBracketsAux, if_neg h1, if_pos rfl, List.replicate_succ,
              reduceIte]
            rw [show d' + 1 - 1 = d' from rfl] at hd
            rw [ih d' hd]
            rfl
        · simp only [noUnmatchedClose, if_neg h1, if_neg h2] at hd
          simp only [protectBracketsAux, if_neg h1, if_neg h2]
          rw [ih d hd]
          rfl
  have h0 : protectBracketsAux [] s = .error .indexError := herr s 0 h
  rw [tokenizeWords, protectBrackets, h0]
  rfl

/-- C6 witness: a line with a closing parenthesis at empty stack. -/
theorem claim_C6_witness : tokenizeWords "a)b".data = .error .indexError :=
  (claim_C6_unbalanced "a)b".data (by decide)).1

/-- C6 counterexample: the claim asserts that the line `• cat (big, dog`
(an opening parenthesis that is never closed) fails with `FormatError`;
in fact the tokenizer succeeds on it. -/
theorem claim_C6_counterexample :
    parseSetOfWordsText "• cat (big, dog" = .ok ["cat (big, dog"] := by decide

/-! ## The document parser (`RWCParser`)

A document is the ordered list of styled paragraphs that `python-docx`
exposes; each line carries a style name and its text.  The parser's
mutable `self.cursor` is threaded explicitly: each parsing step receives
the cursor and returns the new cursor with its result.  `assert`
statements become `assertionError` branches, `StopIteration` becomes
`stopIteration`, and the out-of-range list access in the blank-line skip
loop becomes `indexError`. -/

structure Line where
  style : String
  text : String
deriving DecidableEq, Repr

/-- The blank-line skip loop inside `get_current_line`: starting at index
`c` (the list argument is the document's suffix from `c`), advance while
the line's stripped text is empty.  The loop indexes
`self.document.paragraphs[self.cursor]` without a bound check, so running
off the end raises `IndexError`. -/
def skipBlanksAux : List Line → Nat → Except PyExc (Line × Nat)
  | [], _ => .error .indexError
  | l :: rest, c =>
    if (trimChars l.text.data).isEmpty then skipBlanksAux rest (c + 1) else .ok (l, c)

/-- `RWCParser.get_current_line`: if the cursor is within the document,
skip blank lines and return the current line (with the cursor position it
ends at); otherwise raise `StopIteration`.  (The progress printing is a
side effect outside the functional contract and is not modelled.) -/
def getCurrentLine (paras : List Line) (c : Nat) : Except PyExc (Line × Nat) :=
  if c < paras.length then skipBlanksAux (paras.drop c) c else .error .stopIteration

/-- `RWCParser.parse_domain_title`: the line must have style `Heading 2`;
split its text on single spaces, the first token is the code and the rest,
rejoined with single spaces, the title.  (`split(" ")` never returns an
empty list, so the starred unpacking always succeeds; `headI` matches.) -/
def parseDomainTitle (paras : List Line) (c : Nat) :
    Except PyExc ((String × String) × Nat) :=
  match getCurrentLine paras c with
  | .error e => .error e
  | .ok (line, c1) =>
    if line.style = "Heading 2" then
      let parts := charSplitOn ' ' line.text.data
      .ok ((String.mk parts.headI, String.mk (List.intercalate [' '] parts.tail)), c1 + 1)
    else .error .assertionError

/-- `RWCParser.parse_domain_description`: the line must have style
`descr`; its full text is the description. -/
def parseDomainDescription (paras : List Line) (c : Nat) :
    Except PyExc (String × Nat) :=
  match getCurrentLine paras c with
  | .error e => .error e
  | .ok (line, c1) =>
    if line.style = "descr" then .ok (line.text, c1 + 1)
    else .error .assertionError

/-- `RWCParser.parse_question_text`: the line must have style `quest1`;
the first space-separated token must start with `(` and end with `)`;
all leading `(` and trailing `)` are stripped and the rest parsed by
`int()`; the remaining tokens, rejoined and stripped, are the question
text. -/
def parseQuestionText (paras : List Line) (c : Nat) :
    Except PyExc ((Int × String) × Nat) :=
  match getCurrentLine paras c with
  | .error e => .error e
  | .ok (line, c1) =>
    if line.style = "quest1" then
      let parts := charSplitOn ' ' line.text.data
      let numTok := parts.headI
      if numTok.head? = some '(' ∧ numTok.getLast? = some ')' then
        match parsePyInt (rstripChar ')' (lstripChar '(' numTok)) with
        | .error e => .error e
        | .ok num =>
          .ok ((num, String.mk (trimChars (List.intercalate [' '] parts.tail))), c1 + 1)
      else .error .assertionError
    else .error .assertionError

/-- `RWCParser.parse_set_of_words` (cursor handling): the line must have
style `words`; its text is tokenized by `parseSetOfWordsText`. -/
def parseSetOfWords (paras : List Line) (c : Nat) :
    Except PyExc (List String × Nat) :=
  match getCurrentLine paras c with
  | .error e => .error e
  | .ok (line, c1) =>
    if line.style = "words" then
      match parseSetOfWordsText line.text with
      | .error e => .error e
      | .ok ws => .ok (ws, c1 + 1)
    else .error .assertionError

/-- `RWCParser.parse_question`: question line followed by its words line. -/
def parseQuestion (paras : List Line) (c : Nat) : Except PyExc (Question × Nat) :=
  match parseQuestionText paras c with
  | .error e => .error e
  | .ok ((num, text), c1) =>
    match parseSetOfWords paras c1 with
    | .error e => .error e
    | .ok (ws, c2) => .ok (⟨num, text, ws⟩, c2)

theorem skipBlanksAux_ok {xs : List Line} :
    ∀ {c i : Nat} {l : Line}, skipBlanksAux xs c = .ok (l, i) →
      c ≤ i ∧ i < c + xs.length := by
  induction xs with
  | nil => intro c i l h; simp [skipBlanksAux] at h
  | cons l0 rest ih =>
    intro c i l h
    rw [skipBlanksAux] at h
    by_cases hb : (trimChars l0.text.data).isEmpty
    · rw [if_pos hb] at h
      have := ih h
      simp only [List.length_cons]
      omega
    · rw [if_neg hb] at h
      cases h
      simp only [List.length_cons]
      omega

theorem getCurrentLine_ok {paras : List Line} {c i : Nat} {l : Line}
    (h : getCurrentLine paras c = .ok (l, i)) : c ≤ i ∧ i < paras.length := by
  rw [getCurrentLine] at h
  by_cases hc : c < paras.length
  · rw [if_pos hc] at h
    have := skipBlanksAux_ok h
    rw [List.length_drop] at this
    omega
  · rw [if_neg hc] at h
    cases h

theorem parseDomainTitle_ok {paras : List Line} {c : Nat} {x : String × String}
    {c' : Nat} (h : parseDomainTitle paras c = .ok (x, c')) :
    c < c' ∧ c' ≤ paras.length := by
  rw [parseDomainTitle] at h
  split at h
  · simp at h
  · rename_i line c1 heq
    split at h
    · cases h
      have := getCurrentLine_ok heq
      omega
    · simp at h

theorem parseDomainDescription_ok {paras : List Line} {c : Nat} {x : String}
    {c' : Nat} (h : parseDomainDescription paras c = .ok (x, c')) :
    c < c' ∧ c' ≤ paras.length := by
  rw [parseDomainDescription] at h
  split at h
  · simp at h
  · rename_i line c1 heq
    split at h
    · cases h
      have := getCurrentLine_ok heq
      omega
    · simp at h

theorem parseQuestionText_ok {paras : List Line} {c : Nat} {x : Int × String}
    {c' : Nat} (h : parseQuestionText paras c = .ok (x, c')) :
    c < c' ∧ c' ≤ paras.length := by
  rw [parseQuestionText] at h
  split at h
  · simp at h
  · rename_i line c1 heq
    split at h
    · dsimp only at h
      split at h
      · split at h
        · simp at h
        · cases h
          have := getCurrentLine_ok heq
          omega
      · simp at h
    · simp at h

theorem parseSetOfWords_ok {paras : List Line} {c : Nat} {x : List String}
    {c' : Nat} (h : parseSetOfWords paras c = .ok (x, c')) :
    c < c' ∧ c' ≤ paras.length := by
  rw [parseSetOfWords] at h
  split at h
  · simp at h
  · rename_i line c1 heq
    split at h
    · split at h
      · simp at h
      · cases h
        have := getCurrentLine_ok heq
        omega
    · simp at h

theorem parseQuestion_ok {paras : List Line} {c : Nat} {q : Question}
    {c' : Nat} (h : parseQuestion paras c = .ok (q, c')) :
    c < c' ∧ c' ≤ paras.length := by
  rw [parseQuestion] at h
  split at h
  · simp at h
  · rename_i num text c1 heq
    split at h
    · simp at h
    · rename_i ws c2 heq2
      cases h
      have h1 := parseQuestionText_ok heq
      have h2 := parseSetOfWords_ok heq2
      omega

/-- The `while` loop of `RWCParser.parse_domain_questions`: while the
current line's style is `quest1` or `words`, parse a question; then fetch
the next line, breaking the loop only on `StopIteration` (the Python
`try`/`except StopIteration: break`); any other exception propagates. -/
def parseDQLoop (paras : List Line) (line : Line) (c : Nat) :
    Except PyExc (List Question × Nat) :=
  if line.style = "quest1" ∨ line.style = "words" then
    match hq : parseQuestion paras c with
    | .error e => .error e
    | .ok (q, c2) =>
      match hg : getCurrentLine paras c2 with
      | .error e => if e = .stopIteration then .ok ([q], c2) else .error e
      | .ok (line', c3) =>
        match parseDQLoop paras line' c3 with
        | .error e => .error e
        | .ok (qs, c') => .ok (q :: qs, c')
  else .ok ([], c)
termination_by paras.length - c
decreasing_by
  have h1 := parseQuestion_ok hq
  have h2 := getCurrentLine_ok hg
  omega

/-- `RWCParser.parse_domain_questions`: the first `get_current_line` is
outside the `try`, so a `StopIteration` (or `IndexError`) from it
propagates. -/
def parseDomainQuestions (paras : List Line) (c : Nat) :
    Except PyExc (List Question × Nat) :=
  match getCurrentLine paras c with
  | .error e => .error e
  | .ok (line, c1) => parseDQLoop paras line c1

theorem parseDQLoop_ok {paras : List Line} {line : Line} {c : Nat}
    {qs : List Question} {c' : Nat}
    (h : parseDQLoop paras line c = .ok (qs, c')) : c ≤ c' := by
  rw [parseDQLoop] at h
  split at h
  · split at h
    · simp at h
    · rename_i q c2 hq
      split at h
      · rename_i e hg
        split at h
        · cases h
          have := parseQuestion_ok hq
          omega
        · simp at h
      · rename_i line' c3 hg
        split at h
        · simp at h
        · rename_i qs2 c'2 hrec
          cases h
          have h1 := parseQuestion_ok hq
          have h2 := getCurrentLine_ok hg
          have h3 := parseDQLoop_ok hrec
          omega
  · cases h
    omega
termination_by paras.length - c
decreasing_by omega

theorem parseDomainQuestions_ok {paras : List Line} {c : Nat} {qs : List Question}
    {c' : Nat} (h : parseDomainQuestions paras c = .ok (qs, c')) : c ≤ c' := by
  rw [parseDomainQuestions] at h
  split at h
  · simp at h
  · rename_i line c1 heq
    have := getCurrentLine_ok heq
    have := parseDQLoop_ok h
    omega

/-- `RWCParser.parse_domain`: title, then description, then questions. -/
def parseDomain (paras : List Line) (c : Nat) : Except PyExc (Domain × Nat) :=
  match parseDomainTitle paras c with
  | .error e => .error e
  | .ok ((code, title), c1) =>
    match parseDomainDescription paras c1 with
    | .error e => .error e
    | .ok (descr, c2) =>
      match parseDomainQuestions paras c2 with
      | .error e => .error e
      | .ok (qs, c3) => .ok (⟨code, title, descr, qs⟩, c3)

theorem parseDomain_ok {paras : List Line} {c : Nat} {d : Domain} {c' : Nat}
    (h : parseDomain paras c = .ok (d, c')) : c < c' := by
  rw [parseDomain] at h
  split at h
  · simp at h
  · rename_i code title c1 h1
    split at h
    · simp at h
    · rename_i descr c2 h2
      split at h
      · simp at h
      · rename_i qs c3 h3
        cases h
        have g1 := parseDomainTitle_ok h1
        have g2 := parseDomainDescription_ok h2
        have g3 := parseDomainQuestions_ok h3
        omega

/-- The `while self.cursor < self.num_lines()` loop of `RWCParser.parse`.
There is no exception handling here: any failure of `parse_domain`
propagates. -/
def parseLoop (paras : List Line) (c : Nat) : Except PyExc (List Domain) :=
  if h : c < paras.length then
    match hd : parseDomain paras c with
    | .error e => .error e
    | .ok (d, c') =>
      match parseLoop paras c' with
      | .error e => .error e
      | .ok ds => .ok (d :: ds)
  else .ok []
termination_by paras.length - c
decreasing_by
  have := parseDomain_ok hd
  omega

/-- `RWCParser.parse`: reset the cursor to 0 and parse domain blocks
until the cursor reaches the end of the document. -/
def parse (paras : List Line) : Except PyExc (List Domain) := parseLoop paras 0

theorem skipBlanksAux_all_blank {xs : List Line} :
    ∀ {c : Nat}, (∀ l ∈ xs, (trimChars l.text.data).isEmpty = true) →
      skipBlanksAux xs c = .error .indexError := by
  induction xs with
  | nil => intro c _; rfl
  | cons l0 rest ih =>
    intro c hall
    rw [skipBlanksAux, if_pos (hall l0 (by simp))]
    exact ih (fun l hl => hall l (by simp [hl]))

theorem skipBlanksAux_ok_char {xs : List Line} :
    ∀ {c i : Nat} {l : Line}, skipBlanksAux xs c = .ok (l, i) →
      c ≤ i ∧ i < c + xs.length ∧ xs[i - c]? = some l ∧
      (trimChars l.text.data).isEmpty = false ∧
      (∀ j, c ≤ j → j < i → ∀ l', xs[j - c]? = some l' →
        (trimChars l'.text.data).isEmpty = true) := by
  induction xs with
  | nil => intro c i l h; simp [skipBlanksAux] at h
  | cons l0 rest ih =>
    intro c i l h
    rw [skipBlanksAux] at h
    by_cases hb : (trimChars l0.text.data).isEmpty
    · rw [if_pos hb] at h
      obtain ⟨g1, g2, g3, g4, g5⟩ := ih h
      refine ⟨by omega, by simp only [List.length_cons]; omega, ?_, g4, ?_⟩
      · rw [show i - c = (i - (c + 1)) + 1 from by omega]
        simpa using g3
      · intro j hj1 hj2 l' hl'
        by_cases hjc : j = c
        · subst hjc
          rw [Nat.sub_self] at hl'
          simp only [List.getElem?_cons_zero, Option.some.injEq] at hl'
          rw [← hl']
          exact hb
        · have : j - c = (j - (c + 1)) + 1 := by omega
          rw [this] at hl'
          simp only [List.getElem?_cons_succ] at hl'
          exact g5 j (by omega) hj2 l' hl'
    · rw [if_neg hb] at h
      cases h
      refine ⟨Nat.le_refl _, by simp only [List.length_cons]; omega, ?_, ?_, ?_⟩
      · simp
      · cases hv : (trimChars l0.text.data).isEmpty
        · rfl
        · exact absurd hv hb
      · intro j hj1 hj2 l' _
        omega

/-- C8: amended.  `get_current_line` raises `EndOfInput` (`StopIteration`)
exactly when the cursor is at or past the document length on entry; when
the cursor is in range it skips blank lines, but if every line from the
cursor to the end of the document is blank the skip loop runs past the
end and raises `IndexError` by accessing index `len(paragraphs)` — it
does not raise `EndOfInput` and it does access an out-of-range index.
On success it returns the first non-blank line at or after the cursor,
together with its index. -/
theorem claim_C8_get_current_line (paras : List Line) (c : Nat) :
    (c ≥ paras.length → getCurrentLine paras c = .error .stopIteration) ∧
    (c < paras.length →
      (paras.drop c).all (fun l => (trimChars l.text.data).isEmpty) = true →
      getCurrentLine paras c = .error .indexError) ∧
    (∀ l i, getCurrentLine paras c = .ok (l, i) →
      c ≤ i ∧ i < paras.length ∧ paras[i]? = some l ∧
      (trimChars l.text.data).isEmpty = false ∧
      (∀ j, c ≤ j → j < i → ∀ l', paras[j]? = some l' →
        (trimChars l'.text.data).isEmpty = true)) := by
  refine ⟨?_, ?_, ?_⟩
  · intro hc
    rw [getCurrentLine, if_neg (by omega)]
  · intro hc hall
    rw [getCurrentLine, if_pos hc]
    exact skipBlanksAux_all_blank (by simpa [List.all_eq_true] using hall)
  · intro l i h
    rw [getCurrentLine] at h
    by_cases hc : c < paras.length
    · rw [if_pos hc] at h
      obtain ⟨g1, g2, g3, g4, g5⟩ := skipBlanksAux_ok_char h
      rw [List.length_drop] at g2
      have hidx : paras[i]? = some l := by
        rw [List.getElem?_drop] at g3
        rwa [show c + (i - c) = i from by omega] at g3
      refine ⟨g1, by omega, hidx, g4, ?_⟩
      intro j hj1 hj2 l' hl'
      refine g5 j hj1 hj2 l' ?_
      rw [List.getElem?_drop, show c + (j - c) = j from by omega]
      exact hl'
    · rw [if_neg hc] at h
      cases h

/-- C8 witness: a cursor already past the end raises `EndOfInput`, applied
at a concrete document. -/
theorem claim_C8_witness :
    getCurrentLine [⟨"words", "• cat"⟩] 5 = .error .stopIteration :=
  (claim_C8_get_current_line [⟨"words", "• cat"⟩] 5).1 (by decide)

/-- C8 counterexample: on a one-line document whose line is blank, the
cursor (0) does not exceed the document length (1), yet `get_current_line`
raises `IndexError` — by accessing index 1 — rather than `EndOfInput`;
the claim says it fails with `EndOfInput` exactly when the cursor exceeds
the length and never accesses an index beyond the document. -/
theorem claim_C8_counterexample :
    getCurrentLine [⟨"words", "  "⟩] 0 = .error .indexError ∧
    (0 : Nat) < ([⟨"words", "  "⟩] : List Line).length ∧
    PyExc.indexError ≠ PyExc.stopIteration := by decide

/-- C3: amended.  A document that ends in the middle of a domain block —
here, a single domain-title line with no following description line —
does fail rather than return a partial result, but the failure is
`EndOfInput` (`StopIteration`) escaping the top-level `parse`, not
`FormatError`: `parse` has no exception handler, and only the per-domain
question loop catches `StopIteration`; `parse_domain_description`'s
`get_current_line` raises it straight through `parse_domain` and
`parse`. -/
theorem claim_C3_parse_mid_block (l : Line)
    (hstyle : l.style = "Heading 2")
    (hnb : (trimChars l.text.data).isEmpty = false) :
    parse [l] = .error .stopIteration := by
  have hgc : getCurrentLine [l] 0 = .ok (l, 0) := by
    rw [getCurrentLine, if_pos (by simp), List.drop_zero, skipBlanksAux,
      if_neg (by simp [hnb])]
  have ht : parseDomainTitle [l] 0 =
      .ok ((String.mk (charSplitOn ' ' l.text.data).headI,
            String.mk (List.intercalate [' '] (charSplitOn ' ' l.text.data).tail)), 1) := by
    rw [parseDomainTitle, hgc]
    simp [hstyle]
  have hd : parseDomainDescription [l] 1 = .error .stopIteration := by
    rw [parseDomainDescription, getCurrentLine, if_neg (by simp)]
  have hpd : parseDomain [l] 0 = .error .stopIteration := by
    rw [parseDomain, ht]
    dsimp only
    rw [hd]
  rw [parse, parseLoop, dif_pos (by simp)]
  split
  · rename_i e heq
    rw [hpd] at heq
    cases heq
    rfl
  · rename_i d c' heq
    rw [hpd] at heq
    cases heq

/-- C3 witness: the amended statement at a concrete one-line document. -/
theorem claim_C3_witness :
    parse [⟨"Heading 2", "2 Body"⟩] = .error .stopIteration :=
  claim_C3_parse_mid_block ⟨"Heading 2", "2 Body"⟩ rfl (by decide)

/-- C3 counterexample: on the document consisting of the single title line
`1 Universe`, `parse` surfaces `EndOfInput` (`StopIteration`) — not
`FormatError` (`AssertionError`) as the claim states, and contrary to the
claim's assertion that `EndOfInput` is never surfaced past the top-level
`parse` call. -/
theorem claim_C3_counterexample :
    parse [⟨"Heading 2", "1 Universe"⟩] = .error .stopIteration ∧
    PyExc.stopIteration ≠ PyExc.assertionError := by
  constructor
  · have hgc : getCurrentLine [⟨"Heading 2", "1 Universe"⟩] 0 =
        .ok (⟨"Heading 2", "1 Universe"⟩, 0) := by
      rw [getCurrentLine, if_pos (by simp), List.drop_zero, skipBlanksAux,
        if_neg (by decide)]
    have ht : parseDomainTitle [⟨"Heading 2", "1 Universe"⟩] 0 =
        .ok (("1", "Universe"), 1) := by
      rw [parseDomainTitle, hgc]
      simp only [reduceIte]
      decide
    have hd : parseDomainDescription [⟨"Heading 2", "1 Universe"⟩] 1 =
        .error .stopIteration := by
      rw [parseDomainDescription, getCurrentLine, if_neg (by simp)]
    have hpd : parseDomain [⟨"Heading 2", "1 Universe"⟩] 0 = .error .stopIteration := by
      rw [parseDomain, ht]
      dsimp only
      rw [hd]
    rw [parse, parseLoop, dif_pos (by simp)]
    split
    · rename_i e heq
      rw [hpd] at heq
      cases heq
      rfl
    · rename_i d c' heq
      rw [hpd] at heq
      cases heq
  · decide

/-! ## JSON-level values and (de)serialization (`definitions.py`,
`dump_domains_to_json` / `read_domains_from_json`)

`asdict` produces nested Python dicts/lists/primitives; those runtime
values are modelled by `PyVal`.  The on-disk JSON text itself is the thin
external mapping the spec excludes from the core; (de)serialization is
modelled at the value level. -/

inductive PyVal where
  | pyInt (n : Int)
  | pyStr (s : String)
  | pyList (xs : List PyVal)
  | pyDict (kvs : List (String × PyVal))

/-- First-match association lookup: Python dict access `kvs[key]`
(keys are unique in a dict built by `asdict`). -/
def dictGet : List (String × PyVal) → String → Except PyExc PyVal
  | [], _ => .error .keyError
  | (k, v) :: rest, key => if k = key then .ok v else dictGet rest key

/-- `dataclasses.asdict` on a `Question`: the field dict in declaration
order, words as a list of plain strings. -/
def Question.to_dict (q : Question) : PyVal :=
  .pyDict [("num", .pyInt q.num), ("text", .pyStr q.text),
           ("words", .pyList (q.words.map PyVal.pyStr))]

/-- `SemanticDomainObject.to_dict` on a `Domain` (no excluded fields):
`asdict` recursively turns the nested `Question`s into dicts. -/
def Domain.to_dict (d : Domain) : PyVal :=
  .pyDict [("code", .pyStr d.code), ("title", .pyStr d.title),
           ("description", .pyStr d.description),
           ("questions", .pyList (d.questions.map Question.to_dict))]

/-- `Question.from_dict` = `Question(**kwargs)`: the kwargs dict must have
exactly the fields `num`, `text`, `words` (in any order).  The Python
dataclass performs no runtime type validation; the typed fields of the
Lean structure check the value shapes instead, which agrees on every
value `to_dict` can produce. -/
def Question.from_dict : PyVal → Except PyExc Question
  | .pyDict kvs =>
    if (kvs.map Prod.fst).isPerm ["num", "text", "words"] then
      match dictGet kvs "num" with
      | .ok (.pyInt n) =>
        match dictGet kvs "text" with
        | .ok (.pyStr t) =>
          match dictGet kvs "words" with
          | .ok (.pyList ws) =>
            match ws.mapM (fun v => match v with
                | PyVal.pyStr s => (.ok s : Except PyExc String)
                | _ => .error .typeError) with
            | .ok words => .ok ⟨n, t, words⟩
            | .error e => .error e
          | .ok _ => .error .typeError
          | .error e => .error e
        | .ok _ => .error .typeError
        | .error e => .error e
      | .ok _ => .error .typeError
      | .error e => .error e
    else .error .typeError
  | _ => .error .typeError

/-- `Domain.from_dict`: the `questions` field exception first converts
every entry with `Question.from_dict`, then `Domain(**kwargs)` requires
exactly the four fields. -/
def Domain.from_dict : PyVal → Except PyExc Domain
  | .pyDict kvs =>
    if (kvs.map Prod.fst).isPerm ["code", "title", "description", "questions"] then
      match dictGet kvs "questions" with
      | .ok (.pyList qs) =>
        match qs.mapM Question.from_dict with
        | .ok questions =>
          match dictGet kvs "code" with
          | .ok (.pyStr code) =>
            match dictGet kvs "title" with
            | .ok (.pyStr title) =>
              match dictGet kvs "description" with
              | .ok (.pyStr description) => .ok ⟨code, title, description, questions⟩
              | .ok _ => .error .typeError
              | .error e => .error e
            | .ok _ => .error .typeError
            | .error e => .error e
          | .ok _ => .error .typeError
          | .error e => .error e
        | .error e => .error e
      | .ok _ => .error .typeError
      | .error e => .error e
    else .error .typeError
  | _ => .error .typeError

theorem question_from_to_dict (q : Question) :
    Question.from_dict q.to_dict = .ok q := by
  have hws : (q.words.map PyVal.pyStr).mapM (fun v => match v with
      | PyVal.pyStr s => (.ok s : Except PyExc String)
      | _ => .error .typeError) = .ok q.words := by
    induction q.words with
    | nil => rfl
    | cons w ws ih =>
      simp only [List.map_cons, List.mapM_cons, ih]
      rfl
  rw [Question.to_dict, Question.from_dict]
  have hperm : (List.map Prod.fst [("num", PyVal.pyInt q.num), ("text", PyVal.pyStr q.text),
      ("words", PyVal.pyList (List.map PyVal.pyStr q.words))]).isPerm
        ["num", "text", "words"] = true := by
    simp only [List.map_cons, List.map_nil]
    decide
  rw [if_pos hperm]
  simp only [dictGet, String.reduceEq, reduceIte]
  rw [hws]

theorem domain_from_to_dict (d : Domain) :
    Domain.from_dict d.to_dict = .ok d := by
  have hqs : (d.questions.map Question.to_dict).mapM Question.from_dict
      = .ok d.questions := by
    induction d.questions with
    | nil => rfl
    | cons q qs ih =>
      simp only [List.map_cons, List.mapM_cons, question_from_to_dict q, ih]
      rfl
  rw [Domain.to_dict, Domain.from_dict]
  have hperm : (List.map Prod.fst [("code", PyVal.pyStr d.code),
      ("title", PyVal.pyStr d.title), ("description", PyVal.pyStr d.description),
      ("questions", PyVal.pyList (d.questions.map Question.to_dict))]).isPerm
        ["code", "title", "description", "questions"] = true := by
    simp only [List.map_cons, List.map_nil]
    decide
  rw [if_pos hperm]
  simp only [dictGet, String.reduceEq, reduceIte]
  rw [hqs]

/-- `dump_domains_to_json` duck-types: it calls `.to_dict()` on every
element of the list it is given.  A `Domain` instance has that method; a
plain dict (as produced by a prior `to_dict` call) does not, and the
attribute access raises `AttributeError`. -/
inductive PyObj where
  | domainObj (d : Domain)
  | dictObj (v : PyVal)

def callToDict : PyObj → Except PyExc PyVal
  | .domainObj d => .ok d.to_dict
  | .dictObj _ => .error .attributeError

/-- `dump_domains_to_json(domains, path)`: the JSON value written to the
output file — a dict with the package `version` string and the
`domains` list of `domain.to_dict()` for each list element.  The file
write itself is the external side effect; the value is what is
serialized. -/
def dump_domains_to_json (ver : String) (domains : List PyObj) : Except PyExc PyVal :=
  match domains.mapM callToDict with
  | .error e => .error e
  | .ok ds => .ok (.pyDict [("version", .pyStr ver), ("domains", .pyList ds)])

/-- `read_domains_from_json` (with the default `Domain` class): read
`data["domains"]` and convert each entry with `Domain.from_dict`. -/
def read_domains_from_json (data : PyVal) : Except PyExc (List Domain) :=
  match data with
  | .pyDict kvs =>
    match dictGet kvs "domains" with
    | .error e => .error e
    | .ok (.pyList ds) =>
      match ds.mapM Domain.from_dict with
      | .error e => .error e
      | .ok domains => .ok domains
    | .ok _ => .error .typeError
  | _ => .error .typeError

/-- `convert_rwc_domains_to_json`: parse the document, pre-convert every
domain to a dict (`domain.to_dict()`), then hand the list of dicts to
`dump_domains_to_json` — which calls `.to_dict()` on each of them again. -/
def convert_rwc_domains_to_json (ver : String) (paras : List Line) :
    Except PyExc PyVal :=
  match parse paras with
  | .error e => .error e
  | .ok domains =>
    dump_domains_to_json ver (domains.map (fun d => PyObj.dictObj d.to_dict))

/-- C2: serializing a `Domain` (with its nested `Question`s) to its dict
form and deserializing reproduces it field-for-field, and at the list
level `read_domains_from_json` of the value `dump_domains_to_json`
produces (on actual `Domain` objects) reproduces the parsed domain list
exactly, for every version string. -/
theorem claim_C2_roundtrip :
    (∀ d : Domain, Domain.from_dict d.to_dict = .ok d) ∧
    (∀ q : Question, Question.from_dict q.to_dict = .ok q) ∧
    (∀ (ver : String) (ds : List Domain),
      (match dump_domains_to_json ver (ds.map PyObj.domainObj) with
       | .error e => (.error e : Except PyExc (List Domain))
       | .ok v => read_domains_from_json v) = .ok ds) := by
  refine ⟨domain_from_to_dict, question_from_to_dict, ?_⟩
  intro ver ds
  have hdump : (ds.map PyObj.domainObj).mapM callToDict
      = .ok (ds.map Domain.to_dict) := by
    induction ds with
    | nil => rfl
    | cons d rest ih =>
      simp only [List.map_cons, List.mapM_cons, ih]
      rfl
  have hread : (ds.map Domain.to_dict).mapM Domain.from_dict = .ok ds := by
    clear hdump
    induction ds with
    | nil => rfl
    | cons d rest ih =>
      simp only [List.map_cons, List.mapM_cons, domain_from_to_dict d, ih]
      rfl
  rw [dump_domains_to_json, hdump]
  dsimp only
  rw [read_domains_from_json.eq_def]
  dsimp only
  simp only [dictGet, String.reduceEq, reduceIte]
  rw [hread]

/-- A well-formed four-line RWC document: one domain with one question. -/
def rwcExampleDoc : List Line :=
  [⟨"Heading 2", "1 Universe"⟩,
   ⟨"descr", "The universe."⟩,
   ⟨"quest1", "(1) What words refer to everything?"⟩,
   ⟨"words", "• universe, creation"⟩]

def rwcExampleDomain : Domain :=
  ⟨"1", "Universe", "The universe.",
   [⟨1, "What words refer to everything?", ["universe", "creation"]⟩]⟩

theorem parse_rwcExampleDoc : parse rwcExampleDoc = .ok [rwcExampleDomain] := by
  have hloop : parseDQLoop rwcExampleDoc ⟨"quest1", "(1) What words refer to everything?"⟩ 2
      = .ok ([⟨1, "What words refer to everything?", ["universe", "creation"]⟩], 4) := by
    rw [parseDQLoop]
    decide
  have hdq : parseDomainQuestions rwcExampleDoc 2
      = .ok ([⟨1, "What words refer to everything?", ["universe", "creation"]⟩], 4) := by
    rw [parseDomainQuestions]
    rw [show getCurrentLine rwcExampleDoc 2
      = .ok (⟨"quest1", "(1) What words refer to everything?"⟩, 2) from by decide]
    exact hloop
  have hpd : parseDomain rwcExampleDoc 0 = .ok (rwcExampleDomain, 4) := by
    rw [parseDomain]
    rw [show parseDomainTitle rwcExampleDoc 0 = .ok (("1", "Universe"), 1) from by decide]
    dsimp only
    rw [show parseDomainDescription rwcExampleDoc 1 = .ok ("The universe.", 2) from by
      decide]
    dsimp only
    rw [hdq]
    rfl
  have hL4 : parseLoop rwcExampleDoc 4 = .ok [] := by
    rw [parseLoop]
    rfl
  rw [parse, parseLoop, dif_pos (by decide)]
  split
  · rename_i e heq
    rw [hpd] at heq
    cases heq
  · rename_i d c' heq
    rw [hpd] at heq
    cases heq
    rw [hL4]

/-- C9: the claim is right and the code is wrong.
`convert_rwc_domains_to_json` pre-converts every parsed domain to a dict
and passes the dict list to `dump_domains_to_json`, whose own
`domain.to_dict()` call (its signature says `domains: List[Domain]`) then
raises `AttributeError` — a dict has no `to_dict` — before anything is
written.  So for every document parsing to a non-empty domain list the
command fails instead of producing the JSON object the claim describes.
The final conjunct shows the intended behavior: on actual `Domain`
objects `dump_domains_to_json` produces exactly the claimed value, so the
double conversion is a slip, not a design. -/
theorem claim_C9_convert_bug :
    (∀ (ver : String) (ds : List Domain), ds ≠ [] →
      dump_domains_to_json ver (ds.map (fun d => PyObj.dictObj d.to_dict))
        = .error .attributeError) ∧
    parse rwcExampleDoc = .ok [rwcExampleDomain] ∧
    (∀ ver : String,
      convert_rwc_domains_to_json ver rwcExampleDoc = .error .attributeError) ∧
    (∀ (ver : String) (ds : List Domain),
      dump_domains_to_json ver (ds.map PyObj.domainObj)
        = .ok (.pyDict [("version", .pyStr ver),
                        ("domains", .pyList (ds.map Domain.to_dict))])) := by
  refine ⟨?_, parse_rwcExampleDoc, ?_, ?_⟩
  · intro ver ds hne
    obtain ⟨d, rest, rfl⟩ := List.exists_cons_of_ne_nil hne
    rw [dump_domains_to_json]
    rw [show ((d :: rest).map (fun d => PyObj.dictObj d.to_dict)).mapM callToDict
      = .error .attributeError from by
        simp only [List.map_cons, List.mapM_cons]
        rfl]
  · intro ver
    rw [convert_rwc_domains_to_json, parse_rwcExampleDoc]
    dsimp only
    rw [dump_domains_to_json]
    rw [show ([rwcExampleDomain].map (fun d => PyObj.dictObj d.to_dict)).mapM callToDict
      = .error .attributeError from by
        simp only [List.map_cons, List.mapM_cons]
        rfl]
  · intro ver ds
    have hdump : (ds.map PyObj.domainObj).mapM callToDict
        = .ok (ds.map Domain.to_dict) := by
      induction ds with
      | nil => rfl
      | cons d rest ih =>
        simp only [List.map_cons, List.mapM_cons, ih]
        rfl
    rw [dump_domains_to_json, hdump]

/-- C9 witness: the failing call at a concrete version string and a
concrete one-domain list. -/
theorem claim_C9_witness :
    dump_domains_to_json "0.1.0"
      ([rwcExampleDomain].map (fun d => PyObj.dictObj d.to_dict))
      = .error .attributeError :=
  claim_C9_convert_bug.1 "0.1.0" [rwcExampleDomain] (by decide)

/-! ## `copy_replace` (`definitions.py`) for C10

`copy_replace` builds `values = asdict(self)` — which converts the nested
`Question` dataclasses to plain dicts — applies the keyword overrides,
and calls `Domain(**values)`.  Dataclasses perform no conversion or
validation, so the resulting `Domain` instance holds plain dicts in its
`questions` list whenever the list is non-empty.  Such a heterogeneous
runtime value is modelled by `DomainObj`, whose question entries are
either `Question` objects or dict values. -/

inductive QEntry where
  | qObj (q : Question)
  | qDict (v : PyVal)

structure DomainObj where
  code : String
  title : String
  description : String
  questions : List QEntry

/-- The runtime value of a parsed `Domain`: its questions are `Question`
objects. -/
def domainAsObj (d : Domain) : DomainObj :=
  ⟨d.code, d.title, d.description, d.questions.map QEntry.qObj⟩

/-- `d.copy_replace()` with no keyword overrides: `values.update({})` is
the identity, so the result differs from `d` only in that `asdict` turned
each question into its dict. -/
def copy_replace_noargs (d : Domain) : DomainObj :=
  ⟨d.code, d.title, d.description, d.questions.map (fun q => QEntry.qDict q.to_dict)⟩

/-- C10: for every `Domain` with a non-empty questions list,
`copy_replace()` with no overrides returns an object whose questions
entries are all plain dicts (the `asdict` conversion is not reversed),
hence not field-for-field equal to the original; with an empty questions
list the copy equals the original. -/
theorem claim_C10_copy_replace (d : Domain) :
    (d.questions ≠ [] →
      (∀ e ∈ (copy_replace_noargs d).questions, ∃ v, e = QEntry.qDict v) ∧
      copy_replace_noargs d ≠ domainAsObj d) ∧
    (d.questions = [] → copy_replace_noargs d = domainAsObj d) := by
  constructor
  · intro hne
    constructor
    · intro e he
      simp only [copy_replace_noargs] at he
      obtain ⟨q, _, rfl⟩ := List.mem_map.mp he
      exact ⟨q.to_dict, rfl⟩
    · intro heq
      have hqs := congrArg DomainObj.questions heq
      simp only [copy_replace_noargs, domainAsObj] at hqs
      cases hq : d.questions with
      | nil => exact hne hq
      | cons q qs =>
        rw [hq] at hqs
        simp at hqs
  · intro hnil
    simp [copy_replace_noargs, domainAsObj, hnil]

/-- C10 witness: the inequality at a concrete one-question domain. -/
theorem claim_C10_witness :
    copy_replace_noargs ⟨"1", "t", "descr text", [⟨1, "q", ["w"]⟩]⟩
      ≠ domainAsObj ⟨"1", "t", "descr text", [⟨1, "q", ["w"]⟩]⟩ :=
  ((claim_C10_copy_replace ⟨"1", "t", "descr text", [⟨1, "q", ["w"]⟩]⟩).1
    (by decide)).2

/-! ## The domain hierarchy (`hierarchy.py`)

`DomainNode` holds a dict from integer path segment to child node
(modelled as an association list in insertion order, matching Python dict
iteration order) and an optional `Domain` content.  The parent
back-reference is used only by `__repr__` for diagnostics and is not
modelled.  `insert` mutates the tree in Python; here it returns the new
tree — faithful because a failing insert (the duplicate `assert`) fires
only when the full path already exists, so no mutation has happened
before the exception. -/

inductive DomainNode where
  | mk (subdomains : List (Int × DomainNode)) (content : Option Domain)

def DomainNode.subdomains : DomainNode → List (Int × DomainNode)
  | .mk s _ => s

def DomainNode.content : DomainNode → Option Domain
  | .mk _ c => c

/-- `DomainNode()`: fresh node with no children and no content. -/
def emptyNode : DomainNode := .mk [] none

/-- Python dict read `subdomains[key]` (first match; keys are unique). -/
def lookupSub : List (Int × DomainNode) → Int → Option DomainNode
  | [], _ => none
  | (k, v) :: rest, key => if k = key then some v else lookupSub rest key

/-- Python dict write `subdomains[key] = v`: replace in place when the key
exists, append otherwise (insertion order preserved). -/
def updateSub : List (Int × DomainNode) → Int → DomainNode → List (Int × DomainNode)
  | [], key, v => [(key, v)]
  | (k, w) :: rest, key, v =>
    if k = key then (key, v) :: rest else (k, w) :: updateSub rest key v

/-- `DomainNode.domain_code`: split the dotted code and parse each part
with `int()`. -/
def domain_code (code : String) : Except PyExc (List Int) :=
  (charSplitOn '.' code.data).mapM parsePyInt

example : domain_code "1.2.1" = .ok [1, 2, 1] := by decide
example : domain_code "2" = .ok [2] := by decide
example : domain_code "1..2" = .error .valueError := by decide

/-- `DomainNode.insert` after the code has been split: descend, creating
missing intermediate nodes, and set the content at the final segment;
`assert self.content is None` fails on a duplicate. -/
def insertAux : DomainNode → Domain → List Int → Except PyExc DomainNode
  | .mk subs content, d, [] =>
    match content with
    | none => .ok (.mk subs (some d))
    | some _ => .error .assertionError
  | .mk subs content, d, c :: rest =>
    match insertAux ((lookupSub subs c).getD emptyNode) d rest with
    | .error e => .error e
    | .ok child' => .ok (.mk (updateSub subs c child') content)

/-- `DomainNode.insert(domain)` (no pre-split code). -/
def DomainNode.insert (t : DomainNode) (d : Domain) : Except PyExc DomainNode :=
  match domain_code d.code with
  | .error e => .error e
  | .ok parts => insertAux t d parts

/-- `DomainNode.__getitem__` with a pre-split integer key: descend
(`KeyError` on a missing segment), then `assert content is not None`
(`AssertionError` on a contentless node). -/
def DomainNode.getItemL : DomainNode → List Int → Except PyExc Domain
  | .mk _ content, [] =>
    match content with
    | some d => .ok d
    | none => .error .assertionError
  | .mk subs _, c :: rest =>
    match lookupSub subs c with
    | none => .error .keyError
    | some child => child.getItemL rest

/-- `DomainNode.__getitem__` with a string key: split it first. -/
def DomainNode.getItemS (t : DomainNode) (key : String) : Except PyExc Domain :=
  match domain_code key with
  | .error e => .error e
  | .ok parts => t.getItemL parts

/-- `assemble_hierarchy`: insert every domain, in order, into a fresh
root. -/
def assemble_hierarchy (domains : List Domain) : Except PyExc DomainNode :=
  domains.foldlM DomainNode.insert emptyNode

/-- Content found by descending along integer keys. -/
def contentAt : DomainNode → List Int → Option Domain
  | t, [] => t.content
  | t, c :: rest =>
    match lookupSub t.subdomains c with
    | none => none
    | some child => contentAt child rest

/-- Node found by descending along integer keys. -/
def nodeAtKey : DomainNode → List Int → Option DomainNode
  | t, [] => some t
  | t, c :: rest =>
    match lookupSub t.subdomains c with
    | none => none
    | some child => nodeAtKey child rest

theorem contentAt_emptyNode : ∀ p : List Int, contentAt emptyNode p = none
  | [] => rfl
  | _ :: _ => rfl

theorem lookupSub_updateSub_self (subs : List (Int × DomainNode)) (c : Int)
    (v : DomainNode) : lookupSub (updateSub subs c v) c = some v := by
  induction subs with
  | nil => simp [updateSub, lookupSub]
  | cons kv rest ih =>
    obtain ⟨k, w⟩ := kv
    by_cases hk : k = c
    · subst hk
      simp [updateSub, lookupSub]
    · simp [updateSub, lookupSub, hk, ih]

theorem lookupSub_updateSub_ne (subs : List (Int × DomainNode)) (c c' : Int)
    (v : DomainNode) (h : c' ≠ c) :
    lookupSub (updateSub subs c v) c' = lookupSub subs c' := by
  have hcc : ¬ c = c' := fun hh => h hh.symm
  induction subs with
  | nil => simp [updateSub, lookupSub, hcc]
  | cons kv rest ih =>
    obtain ⟨k, w⟩ := kv
    by_cases hk : k = c
    · subst hk
      simp [updateSub, lookupSub, hcc]
    · by_cases hkc : k = c'
      · subst hkc
        simp [updateSub, lookupSub, hk]
      · simp [updateSub, lookupSub, hk, hkc, ih]

theorem insertAux_ok_contentAt :
    ∀ (p : List Int) (t t' : DomainNode) (d : Domain),
    insertAux t d p = .ok t' → contentAt t' p = some d := by
  intro p
  induction p with
  | nil =>
    intro t t' d h
    obtain ⟨subs, content⟩ := t
    rw [insertAux.eq_def] at h
    dsimp only at h
    split at h
    · cases h; rfl
    · cases h
  | cons c rest ih =>
    intro t t' d h
    obtain ⟨subs, content⟩ := t
    rw [insertAux.eq_def] at h
    dsimp only at h
    split at h
    · cases h
    · rename_i child' hchild
      cases h
      rw [contentAt]
      show (match lookupSub (updateSub subs c child') c with
        | none => none
        | some child => contentAt child rest) = some d
      rw [lookupSub_updateSub_self]
      exact ih _ _ _ hchild

theorem insertAux_ok_contentAt_ne :
    ∀ (p : List Int) (t t' : DomainNode) (d : Domain),
    insertAux t d p = .ok t' → ∀ q : List Int, q ≠ p → contentAt t' q = contentAt t q := by
  intro p
  induction p with
  | nil =>
    intro t t' d h q hq
    obtain ⟨subs, content⟩ := t
    rw [insertAux.eq_def] at h
    dsimp only at h
    split at h
    · cases h
      cases q with
      | nil => exact absurd rfl hq
      | cons c rest => rfl
    · cases h
  | cons c rest ih =>
    intro t t' d h q hq
    obtain ⟨subs, content⟩ := t
    rw [insertAux.eq_def] at h
    dsimp only at h
    split at h
    · cases h
    · rename_i child' hchild
      cases h
      cases q with
      | nil => rfl
      | cons c2 r2 =>
        rw [contentAt, contentAt]
        by_cases hc2 : c2 = c
        · subst hc2
          show (match lookupSub (updateSub subs c2 child') c2 with
            | none => none
            | some child => contentAt child r2) =
            (match lookupSub subs c2 with
            | none => none
            | some child => contentAt child r2)
          rw [lookupSub_updateSub_self]
          dsimp only
          have hr2 : r2 ≠ rest := fun hh => hq (by rw [hh])
          rw [ih _ _ _ hchild r2 hr2]
          cases hl : lookupSub subs c2 with
          | none =>
            simp only [hl, Option.getD_none]
            exact contentAt_emptyNode r2
          | some ch => simp only [hl, Option.getD_some]
        · show (match lookupSub (updateSub subs c child') c2 with
            | none => none
            | some child => contentAt child r2) =
            (match lookupSub subs c2 with
            | none => none
            | some child => contentAt child r2)
          rw [lookupSub_updateSub_ne _ _ _ _ hc2]

theorem insertAux_error_of_some :
    ∀ (p : List Int) (t : DomainNode) (d d0 : Domain),
    contentAt t p = some d0 → insertAux t d p = .error .assertionError := by
  intro p
  induction p with
  | nil =>
    intro t d d0 h
    obtain ⟨subs, content⟩ := t
    have hc : content = some d0 := h
    rw [insertAux.eq_def]
    dsimp only
    rw [hc]
  | cons c rest ih =>
    intro t d d0 h
    obtain ⟨subs, content⟩ := t
    have h' : (match lookupSub subs c with
      | none => none
      | some child => contentAt child rest) = some d0 := h
    rw [insertAux.eq_def]
    dsimp only
    cases hl : lookupSub subs c with
    | none => rw [hl] at h'; cases h'
    | some child =>
      rw [hl] at h'
      rw [show (some child).getD emptyNode = child from rfl]
      rw [ih child d d0 h']

theorem insertAux_ok_of_none :
    ∀ (p : List Int) (t : DomainNode) (d : Domain),
    contentAt t p = none → ∃ t', insertAux t d p = .ok t' := by
  intro p
  induction p with
  | nil =>
    intro t d h
    obtain ⟨subs, content⟩ := t
    have hc : content = none := h
    subst hc
    exact ⟨.mk subs (some d), rfl⟩
  | cons c rest ih =>
    intro t d h
    obtain ⟨subs, content⟩ := t
    have h' : (match lookupSub subs c with
      | none => none
      | some child => contentAt child rest) = none := h
    cases hl : lookupSub subs c with
    | none =>
      obtain ⟨ch', hch⟩ := ih emptyNode d (contentAt_emptyNode rest)
      refine ⟨.mk (updateSub subs c ch') content, ?_⟩
      rw [insertAux.eq_def]
      dsimp only
      rw [hl]
      rw [show (none : Option DomainNode).getD emptyNode = emptyNode from rfl, hch]
    | some child =>
      rw [hl] at h'
      obtain ⟨ch', hch⟩ := ih child d h'
      refine ⟨.mk (updateSub subs c ch') content, ?_⟩
      rw [insertAux.eq_def]
      dsimp only
      rw [hl]
      rw [show (some child).getD emptyNode = child from rfl, hch]

theorem getItemL_of_some :
    ∀ (p : List Int) (t : DomainNode) (d : Domain),
    contentAt t p = some d → t.getItemL p = .ok d := by
  intro p
  induction p with
  | nil =>
    intro t d h
    obtain ⟨subs, content⟩ := t
    have hc : content = some d := h
    subst hc
    rfl
  | cons c rest ih =>
    intro t d h
    obtain ⟨subs, content⟩ := t
    have h' : (match lookupSub subs c with
      | none => none
      | some child => contentAt child rest) = some d := h
    cases hl : lookupSub subs c with
    | none => rw [hl] at h'; cases h'
    | some child =>
      rw [hl] at h'
      rw [DomainNode.getItemL.eq_def]
      dsimp only
      rw [hl]
      exact ih child d h'

theorem getItemL_of_none :
    ∀ (p : List Int) (t : DomainNode),
    contentAt t p = none →
      t.getItemL p = .error .keyError ∨ t.getItemL p = .error .assertionError := by
  intro p
  induction p with
  | nil =>
    intro t h
    obtain ⟨subs, content⟩ := t
    have hc : content = none := h
    subst hc
    exact Or.inr rfl
  | cons c rest ih =>
    intro t h
    obtain ⟨subs, content⟩ := t
    have h' : (match lookupSub subs c with
      | none => none
      | some child => contentAt child rest) = none := h
    cases hl : lookupSub subs c with
    | none =>
      left
      rw [DomainNode.getItemL.eq_def]
      dsimp only
      rw [hl]
    | some child =>
      rw [hl] at h'
      rw [DomainNode.getItemL.eq_def]
      dsimp only
      rw [hl]
      exact ih child h'

theorem getItemL_assertion_of_node :
    ∀ (p : List Int) (t n : DomainNode),
    nodeAtKey t p = some n → contentAt t p = none →
      t.getItemL p = .error .assertionError := by
  intro p
  induction p with
  | nil =>
    intro t n _ h
    obtain ⟨subs, content⟩ := t
    have hc : content = none := h
    subst hc
    rfl
  | cons c rest ih =>
    intro t n hn h
    obtain ⟨subs, content⟩ := t
    have h' : (match lookupSub subs c with
      | none => none
      | some child => contentAt child rest) = none := h
    have hn' : (match lookupSub subs c with
      | none => none
      | some child => nodeAtKey child rest) = some n := hn
    cases hl : lookupSub subs c with
    | none => rw [hl] at hn'; cases hn'
    | some child =>
      rw [hl] at h' hn'
      rw [DomainNode.getItemL.eq_def]
      dsimp only
      rw [hl]
      exact ih child n hn' h'

/-- Codes (as parsed integer paths) of a domain list; a domain whose code
fails to parse contributes nothing (its insertion would have failed). -/
def codesOf (ds : List Domain) : List (List Int) :=
  ds.filterMap (fun d => (domain_code d.code).toOption)

theorem except_error_bind {ε α β : Type} (e : ε) (f : α → Except ε β) :
    (Except.error e >>= f) = Except.error e := rfl

theorem except_ok_bind {ε α β : Type} (a : α) (f : α → Except ε β) :
    (Except.ok a >>= f) = f a := rfl

theorem build_preserve :
    ∀ (ds : List Domain) (t r : DomainNode),
    ds.foldlM DomainNode.insert t = .ok r →
    ∀ (p : List Int) (x : Domain), contentAt t p = some x → contentAt r p = some x := by
  intro ds
  induction ds with
  | nil =>
    intro t r h p x hc
    cases h
    exact hc
  | cons d rest ih =>
    intro t r h p x hc
    rw [List.foldlM_cons] at h
    rw [DomainNode.insert] at h
    split at h
    · rw [except_error_bind] at h; cases h
    · rename_i parts hdc
      cases hins : insertAux t d parts with
      | error e => rw [hins, except_error_bind] at h; cases h
      | ok t1 =>
        rw [hins, except_ok_bind] at h
        have hne : p ≠ parts := by
          intro hpp
          subst hpp
          rw [insertAux_error_of_some p t d x hc] at hins
          cases hins
        refine ih t1 r h p x ?_
        rw [insertAux_ok_contentAt_ne parts t t1 d hins p hne]
        exact hc

theorem build_mem :
    ∀ (ds : List Domain) (t r : DomainNode),
    ds.foldlM DomainNode.insert t = .ok r →
    ∀ d ∈ ds, ∃ parts, domain_code d.code = .ok parts ∧ contentAt r parts = some d := by
  intro ds
  induction ds with
  | nil =>
    intro t r _ d hd
    cases hd
  | cons d0 rest ih =>
    intro t r h d hd
    rw [List.foldlM_cons] at h
    rw [DomainNode.insert] at h
    split at h
    · rw [except_error_bind] at h; cases h
    · rename_i parts0 hdc
      cases hins : insertAux t d0 parts0 with
      | error e => rw [hins, except_error_bind] at h; cases h
      | ok t1 =>
        rw [hins, except_ok_bind] at h
        rcases List.mem_cons.mp hd with hd | hd
        · subst hd
          refine ⟨parts0, hdc, ?_⟩
          exact build_preserve rest t1 r h parts0 d
            (insertAux_ok_contentAt parts0 t t1 d hins)
        · exact ih t1 r h d hd

theorem build_not_mem :
    ∀ (ds : List Domain) (t r : DomainNode),
    ds.foldlM DomainNode.insert t = .ok r →
    ∀ p : List Int, p ∉ codesOf ds → contentAt r p = contentAt t p := by
  intro ds
  induction ds with
  | nil =>
    intro t r h p _
    cases h
    rfl
  | cons d0 rest ih =>
    intro t r h p hp
    rw [List.foldlM_cons] at h
    rw [DomainNode.insert] at h
    split at h
    · rw [except_error_bind] at h; cases h
    · rename_i parts0 hdc
      cases hins : insertAux t d0 parts0 with
      | error e => rw [hins, except_error_bind] at h; cases h
      | ok t1 =>
        rw [hins, except_ok_bind] at h
        have hmem : parts0 ∈ codesOf (d0 :: rest) := by
          simp only [codesOf, List.filterMap_cons, hdc, Except.toOption]
          exact List.mem_cons_self _ _
        have hp1 : p ∉ codesOf rest := by
          intro hx
          refine hp ?_
          simp only [codesOf, List.filterMap_cons, hdc, Except.toOption]
          exact List.mem_cons_of_mem _ hx
        have hne : p ≠ parts0 := fun hh => hp (hh ▸ hmem)
        rw [ih t1 r h p hp1]
        exact insertAux_ok_contentAt_ne parts0 t t1 d0 hins p hne

def dEx12 : Domain := ⟨"1.2", "Body", "about bodies", []⟩
def dEx121 : Domain := ⟨"1.2.1", "Head", "about heads", []⟩
def dEx12b : Domain := ⟨"1.2", "Duplicate", "second domain with the same code", []⟩

/-- The tree after inserting `dEx12` into a fresh root. -/
def t1Ex : DomainNode := .mk [(1, .mk [(2, .mk [] (some dEx12))] none)] none

/-- The tree after inserting `dEx12` and then `dEx121`. -/
def rEx : DomainNode :=
  .mk [(1, .mk [(2, .mk [(1, .mk [] (some dEx121))] (some dEx12))] none)] none

/-- C4: inserting a second `Domain` whose code splits to the same path as
an already-inserted one fails with the duplicate-content `assert`
(`AssertionError`, the code's realization of `DuplicateDomainError`), and
the first domain is still the content at that path (the failing insert
mutates nothing: the full path already exists, so no node is created
before the `assert` fires).  Inserting `"1.2"` and then `"1.2.1"` both
succeed and produce a synthetic node at path `"1"` whose content is
absent. -/
theorem claim_C4_duplicate_insert :
    (∀ (t t1 : DomainNode) (d1 d2 : Domain) (parts : List Int),
      domain_code d2.code = .ok parts →
      insertAux t d1 parts = .ok t1 →
      DomainNode.insert t1 d2 = .error .assertionError ∧
        contentAt t1 parts = some d1) ∧
    (assemble_hierarchy [dEx12, dEx121] = .ok rEx ∧
      (nodeAtKey rEx [1]).map DomainNode.content = some none ∧
      contentAt rEx [1, 2] = some dEx12 ∧ contentAt rEx [1, 2, 1] = some dEx121) := by
  constructor
  · intro t t1 d1 d2 parts hcode hins
    have hc : contentAt t1 parts = some d1 := insertAux_ok_contentAt parts t t1 d1 hins
    refine ⟨?_, hc⟩
    rw [DomainNode.insert, hcode]
    exact insertAux_error_of_some parts t1 d2 d1 hc
  · exact ⟨rfl, rfl, rfl, rfl⟩

/-- C4 witness: inserting a second domain coded `1.2` into the tree that
already holds `dEx12` at `1.2` fails. -/
theorem claim_C4_witness :
    DomainNode.insert t1Ex dEx12b = .error .assertionError :=
  (claim_C4_duplicate_insert.1 emptyNode t1Ex dEx12 dEx12b [1, 2] (by decide) rfl).1

/-- C5: in a hierarchy built by insertions, looking up the code of any
inserted domain — as a string or as the pre-split integer sequence —
returns exactly that domain by value; looking up any code that was not
inserted fails (`KeyError` when a segment is absent — the code's
realization of `KeyNotFoundError` — or the content `assert` when the
path exists only as synthetic contentless nodes, which the last conjunct
singles out). -/
theorem claim_C5_lookup (ds : List Domain) (r : DomainNode)
    (hb : assemble_hierarchy ds = .ok r) :
    (∀ d ∈ ds, ∃ parts, domain_code d.code = .ok parts ∧
      r.getItemL parts = .ok d ∧ r.getItemS d.code = .ok d) ∧
    (∀ p : List Int, p ∉ codesOf ds →
      r.getItemL p = .error .keyError ∨ r.getItemL p = .error .assertionError) ∧
    (∀ p : List Int, p ∉ codesOf ds → ∀ n, nodeAtKey r p = some n →
      r.getItemL p = .error .assertionError) := by
  refine ⟨?_, ?_, ?_⟩
  · intro d hd
    obtain ⟨parts, hdc, hc⟩ := build_mem ds emptyNode r hb d hd
    refine ⟨parts, hdc, getItemL_of_some parts r d hc, ?_⟩
    rw [DomainNode.getItemS, hdc]
    exact getItemL_of_some parts r d hc
  · intro p hp
    have hc : contentAt r p = none := by
      rw [build_not_mem ds emptyNode r hb p hp]
      exact contentAt_emptyNode p
    exact getItemL_of_none p r hc
  · intro p hp n hn
    have hc : contentAt r p = none := by
      rw [build_not_mem ds emptyNode r hb p hp]
      exact contentAt_emptyNode p
    exact getItemL_assertion_of_node p r n hn hc

/-- C5 witness: string lookup of `"1.2.1"` in the concretely built
hierarchy returns the inserted domain. -/
theorem claim_C5_witness : DomainNode.getItemS rEx "1.2.1" = .ok dEx121 := by
  obtain ⟨parts, hdc, hl, hs⟩ :=
    (claim_C5_lookup [dEx12, dEx121] rEx rfl).1 dEx121 (by decide)
  exact hs

/-! ## `DomainNode.traverse` (C7) -/

mutual
/-- `DomainNode.traverse(max_depth)`: for each child in insertion order,
yield the child, then, if `max_depth > 0`, its traversal with
`max_depth - 1`.  The Python generator's laziness is immaterial: the
sequence it produces is this list, and each call creates a fresh
generator, so two calls on the same node yield the same list. -/
def DomainNode.traverse : DomainNode → Nat → List DomainNode
  | .mk subs _, d => traverseList subs d

def traverseList : List (Int × DomainNode) → Nat → List DomainNode
  | [], _ => []
  | (_, node) :: rest, d =>
    (node :: (if 0 < d then node.traverse (d - 1) else [])) ++ traverseList rest d
end

/-- The specification's description of the traversal, as its own
definition: a depth-first pre-order walk in child order, cut off at a
maximum node depth (`k` counts levels: children are at level 1, so
`traverse t d` should equal the walk cut off at `k = d + 1`). -/
def preorderTo : Nat → DomainNode → List DomainNode
  | 0, _ => []
  | k + 1, t => t.subdomains.flatMap (fun p => p.2 :: preorderTo k p.2)

/-- Node reached from `t` by a path of child positions (indices into the
subdomain list, i.e. child-insertion order); the path length is the
node's depth below `t`. -/
def nodeAtIdx : DomainNode → List Nat → Option DomainNode
  | t, [] => some t
  | t, i :: rest =>
    match t.subdomains[i]? with
    | none => none
    | some p => nodeAtIdx p.2 rest

theorem flatMap_congr {α β : Type} {l : List α} {f g : α → List β}
    (h : ∀ a ∈ l, f a = g a) : l.flatMap f = l.flatMap g := by
  induction l with
  | nil => rfl
  | cons a rest ih =>
    simp only [List.flatMap_cons]
    rw [h a (by simp), ih (fun x hx => h x (by simp [hx]))]

theorem traverseList_eq (subs : List (Int × DomainNode)) (d : Nat) :
    traverseList subs d
      = subs.flatMap (fun p => p.2 :: (if 0 < d then p.2.traverse (d - 1) else [])) := by
  induction subs with
  | nil => rfl
  | cons p rest ih =>
    obtain ⟨k, node⟩ := p
    rw [traverseList, List.flatMap_cons, ih]

theorem traverse_eq_preorderTo :
    ∀ (d : Nat) (t : DomainNode), t.traverse d = preorderTo (d + 1) t := by
  intro d
  induction d with
  | zero =>
    intro t
    obtain ⟨subs, content⟩ := t
    rw [DomainNode.traverse, traverseList_eq, preorderTo]
    refine flatMap_congr ?_
    intro p _
    rw [if_neg (by omega), preorderTo]
  | succ d ih =>
    intro t
    obtain ⟨subs, content⟩ := t
    rw [DomainNode.traverse, traverseList_eq, preorderTo]
    refine flatMap_congr ?_
    intro p _
    rw [if_pos (by omega), show d + 1 - 1 = d from rfl, ih p.2]

theorem preorderTo_mem :
    ∀ (k : Nat) (t n : DomainNode),
    n ∈ preorderTo k t ↔
      ∃ p : List Nat, p ≠ [] ∧ p.length ≤ k ∧ nodeAtIdx t p = some n := by
  intro k
  induction k with
  | zero =>
    intro t n
    rw [preorderTo]
    simp only [List.not_mem_nil, false_iff]
    rintro ⟨p, hne, hlen, _⟩
    cases p with
    | nil => exact hne rfl
    | cons a r => simp at hlen
  | succ k ih =>
    intro t n
    rw [preorderTo]
    rw [List.mem_flatMap]
    constructor
    · rintro ⟨pair, hpair, hmem⟩
      obtain ⟨i, hi, hgi⟩ := List.getElem_of_mem hpair
      rcases List.mem_cons.mp hmem with hn | hn
      · refine ⟨[i], by simp, by simp, ?_⟩
        rw [nodeAtIdx]
        rw [show t.subdomains[i]? = some pair from by
          rw [List.getElem?_eq_getElem hi, hgi]]
        rw [hn]
        rfl
      · obtain ⟨p, hne, hlen, hat⟩ := (ih pair.2 n).mp hn
        refine ⟨i :: p, by simp, by simp only [List.length_cons]; omega, ?_⟩
        rw [nodeAtIdx]
        rw [show t.subdomains[i]? = some pair from by
          rw [List.getElem?_eq_getElem hi, hgi]]
        exact hat
    · rintro ⟨p, hne, hlen, hat⟩
      cases p with
      | nil => exact absurd rfl hne
      | cons i rest =>
        have hat' : (match t.subdomains[i]? with
          | none => none
          | some p => nodeAtIdx p.2 rest) = some n := hat
        cases hgi : t.subdomains[i]? with
        | none => rw [hgi] at hat'; cases hat'
        | some pair =>
          rw [hgi] at hat'
          refine ⟨pair, List.getElem?_mem hgi, ?_⟩
          cases rest with
          | nil =>
            have h2 : pair.2 = n := by
              have h3 : some pair.2 = some n := hat'
              cases h3
              rfl
            rw [h2]
            exact List.mem_cons_self _ _
          | cons j rest2 =>
            refine List.mem_cons_of_mem _ ((ih pair.2 n).mpr ?_)
            refine ⟨j :: rest2, by simp, ?_, hat'⟩
            simp only [List.length_cons] at hlen ⊢
            omega

/-- C7: `traverse(max_depth)` is the finite depth-first pre-order walk of
the subtree in child-insertion order: `traverse(0)` yields exactly the
direct children (never a grandchild); in general `traverse d` equals the
pre-order walk cut off at node depth `d + 1`, and a node is yielded
exactly when it sits at the end of a non-empty child-position path of
length at most `d + 1` (it descends no deeper).  Restartability is
purity: the traversal is a function of the node and depth alone, so two
calls on the same unmodified node yield identical sequences. -/
theorem claim_C7_traverse :
    (∀ t : DomainNode, t.traverse 0 = t.subdomains.map Prod.snd) ∧
    (∀ (t : DomainNode) (d : Nat), t.traverse d = preorderTo (d + 1) t) ∧
    (∀ (t n : DomainNode) (d : Nat),
      n ∈ t.traverse d ↔
        ∃ p : List Nat, p ≠ [] ∧ p.length ≤ d + 1 ∧ nodeAtIdx t p = some n) ∧
    (∀ (t : DomainNode) (d : Nat), t.traverse d = t.traverse d) := by
  refine ⟨?_, fun t d => traverse_eq_preorderTo d t, ?_, fun _ _ => rfl⟩
  · intro t
    obtain ⟨subs, content⟩ := t
    rw [DomainNode.traverse, traverseList_eq]
    show subs.flatMap (fun p => p.2 :: (if 0 < 0 then p.2.traverse (0 - 1) else []))
      = subs.map Prod.snd
    rw [flatMap_congr (g := fun p => [p.2]) (fun p _ => by rw [if_neg (by omega)])]
    induction subs with
    | nil => rfl
    | cons p rest ih => simp [List.flatMap_cons, ih]
  · intro t n d
    rw [traverse_eq_preorderTo d t]
    exact preorderTo_mem (d + 1) t n

def tTrav : DomainNode := .mk [(1, .mk [(2, emptyNode)] none)] none

/-- C7 witness: in a two-level tree, traversal with `max_depth = 1`
yields the child found at position path `[0]`. -/
theorem claim_C7_witness :
    DomainNode.mk [(2, emptyNode)] none ∈ tTrav.traverse 1 :=
  (claim_C7_traverse.2.2.1 tTrav (.mk [(2, emptyNode)] none) 1).mpr
    ⟨[0], by decide, by decide, rfl⟩
